import Mathlib

/-!
Verification development for the buffer-variables library: a shallow
embedding of schema inference, the schema compiler, the View mutation and
decode operations, the diff/patch engine and the ViewSync lifecycle,
together with theorems settling the specification claims.

Modelling conventions:
* JavaScript numbers are modelled as exact integers plus NaN
  (`JSNum`); every numeric value exercised by a theorem is a small
  integer, which float64 represents exactly.
* A `DataView` over a SharedArrayBuffer is modelled as a byte length plus
  a typed write log (`DV`): each `set*` call appends a typed cell at its
  byte offset (after the same bounds check the real DataView performs),
  and each `get*` call reads the most recent matching cell, defaulting to
  zero exactly as a freshly allocated (zero-initialised) buffer does.
  The code under verification always reads a cell with the same type and
  offset it was written with (or reads untouched memory), so this log is
  byte-faithful on every execution the theorems mention.
-/

namespace BufferVariables

/-- JavaScript number: an exactly-representable integer or NaN. -/
inductive JSNum where
  | val (i : Int)
  | nan
deriving DecidableEq, Repr

/-- The ten typed-array element kinds of the source (`TypedArrayType`). -/
inductive TAType where
  | int8 | uint8 | int16 | uint16 | int32 | uint32
  | float32 | float64 | bigint64 | biguint64
deriving DecidableEq, Repr

/-- Byte width of one element, from `getTypedArrayByteSize`. -/
def TAType.byteSize : TAType → Nat
  | .int8 => 1 | .uint8 => 1 | .int16 => 2 | .uint16 => 2
  | .int32 => 4 | .uint32 => 4 | .float32 => 4 | .float64 => 8
  | .bigint64 => 8 | .biguint64 => 8

/-- The constructor name string of a typed array, used as its flat-index
type tag by the source. -/
def TAType.name : TAType → String
  | .int8 => "Int8Array" | .uint8 => "Uint8Array"
  | .int16 => "Int16Array" | .uint16 => "Uint16Array"
  | .int32 => "Int32Array" | .uint32 => "Uint32Array"
  | .float32 => "Float32Array" | .float64 => "Float64Array"
  | .bigint64 => "BigInt64Array" | .biguint64 => "BigUint64Array"

/-- JavaScript values representable by the library: the sample shapes the
schema inference accepts (null, undefined, numbers, strings, booleans,
bigints, dates, typed arrays, plain arrays and plain objects). Object
fields are kept in enumeration (insertion) order. -/
inductive JSValue where
  | vNull
  | vUndefined
  | vNum (n : JSNum)
  | vStr (s : String)
  | vBool (b : Bool)
  | vBigInt (i : Int)
  | vDate (ms : Int)
  | vTypedArray (t : TAType) (elems : List Int)
  | vArr (elems : List JSValue)
  | vObj (fields : List (String × JSValue))

/-- Typed cell of the write log: what one DataView `set*` call stores. -/
inductive Cell where
  | f64 (v : JSNum)
  | u32 (n : Nat)
  | u8 (n : Nat)
  | i64 (i : Int)
  | strBytes (s : String)
  | taData (t : TAType) (es : List Int)
deriving DecidableEq, Repr

/-- Model of a DataView over a (zero-initialised) SharedArrayBuffer:
its byte length and the write log, most recent write first. -/
structure DV where
  byteLength : Nat
  writes : List (Nat × Cell)
deriving DecidableEq, Repr

/-- A freshly allocated SharedArrayBuffer of `n` bytes (all zero). -/
def zeroDV (n : Nat) : DV := ⟨n, []⟩

/-- Errors thrown by the library, one constructor per thrown message. -/
inductive Err where
  | bufferTooSmall
  | immutableSizeMismatch
  | undefinedNotAllowed
  | cannotMutateImmutable
  | cannotApplyPatchImmutable
  | cannotUpdateSchemaImmutable
  | invalidPath
  | noTemplateForPath
  | missingValue
  | invalidOffset
  | rangeError
  | typeError
  | stringLengthExceeds
  | arrayLengthExceeds
  | typedArrayLengthExceeds
  | missingDataType
  | unsupportedPrimitive
  | unsupportedDescriptor
  | unsupportedPatchOp
  | invalidPathSegment
  | noTypedArrayAtPath
  | noBoundVariable
deriving DecidableEq, Repr

/-- Write result: the (possibly updated) DataView plus the error thrown,
if any. A thrown error leaves exactly the writes performed so far. -/
abbrev WResult := DV × Option Err

/-- DataView.setFloat64 (little-endian): bounds check then log the cell. -/
def DV.setF64 (dv : DV) (off : Nat) (v : JSNum) : WResult :=
  if off + 8 ≤ dv.byteLength then (⟨dv.byteLength, (off, .f64 v) :: dv.writes⟩, none)
  else (dv, some .rangeError)

/-- DataView.setUint32 (little-endian). -/
def DV.setU32 (dv : DV) (off : Nat) (n : Nat) : WResult :=
  if off + 4 ≤ dv.byteLength then (⟨dv.byteLength, (off, .u32 (n % 2 ^ 32)) :: dv.writes⟩, none)
  else (dv, some .rangeError)

/-- DataView.setUint8. -/
def DV.setU8 (dv : DV) (off : Nat) (n : Nat) : WResult :=
  if off + 1 ≤ dv.byteLength then (⟨dv.byteLength, (off, .u8 (n % 2 ^ 8)) :: dv.writes⟩, none)
  else (dv, some .rangeError)

/-- DataView.setBigInt64 (little-endian). -/
def DV.setI64 (dv : DV) (off : Nat) (i : Int) : WResult :=
  if off + 8 ≤ dv.byteLength then (⟨dv.byteLength, (off, .i64 (i.emod (2 ^ 64))) :: dv.writes⟩, none)
  else (dv, some .rangeError)

/-- Writing the UTF-8 bytes of `s` at `off` through a Uint8Array view
(`new Uint8Array(dv.buffer, off, bytes.length).set(bytes)`): the
constructor range-checks the span. -/
def DV.setStrBytes (dv : DV) (off : Nat) (s : String) : WResult :=
  if off + s.utf8ByteSize ≤ dv.byteLength then
    (⟨dv.byteLength, (off, .strBytes s) :: dv.writes⟩, none)
  else (dv, some .rangeError)

/-- Writing the raw elements of a typed array at `off`. -/
def DV.setTaData (dv : DV) (off : Nat) (t : TAType) (es : List Int) : WResult :=
  if off + es.length * t.byteSize ≤ dv.byteLength then
    (⟨dv.byteLength, (off, .taData t es) :: dv.writes⟩, none)
  else (dv, some .rangeError)

/-- Latest float64 written at exactly `off`, else 0 (zero-initialised). -/
def DV.getF64val (dv : DV) (off : Nat) : JSNum :=
  match dv.writes.find? (fun w => w.1 = off && match w.2 with | .f64 _ => true | _ => false) with
  | some (_, .f64 v) => v
  | _ => .val 0

/-- Latest uint32 written at exactly `off`, else 0. -/
def DV.getU32val (dv : DV) (off : Nat) : Nat :=
  match dv.writes.find? (fun w => w.1 = off && match w.2 with | .u32 _ => true | _ => false) with
  | some (_, .u32 n) => n
  | _ => 0

/-- Latest uint8 written at exactly `off`, else 0. -/
def DV.getU8val (dv : DV) (off : Nat) : Nat :=
  match dv.writes.find? (fun w => w.1 = off && match w.2 with | .u8 _ => true | _ => false) with
  | some (_, .u8 n) => n
  | _ => 0

/-- Latest int64 written at exactly `off`, else 0. -/
def DV.getI64val (dv : DV) (off : Nat) : Int :=
  match dv.writes.find? (fun w => w.1 = off && match w.2 with | .i64 _ => true | _ => false) with
  | some (_, .i64 i) => i
  | _ => 0

/-- UTF-8 decode of `len` bytes at `off`: the string cell previously
written there with that byte length, or the empty string when `len = 0`
(the only other case the verified executions reach is untouched zeroed
memory, which TextDecoder turns into a run of NUL characters; no theorem
exercises that case with `len ≠ 0`). -/
def DV.readStr (dv : DV) (off : Nat) (len : Nat) : String :=
  if len = 0 then ""
  else
    match dv.writes.find? (fun w => w.1 = off &&
        match w.2 with | .strBytes s => s.utf8ByteSize = len | _ => false) with
    | some (_, .strBytes s) => s
    | _ => ""

/-- Typed-array elements at `off`: the elements written there, else
zeros (zero-initialised memory). -/
def DV.readTa (dv : DV) (off : Nat) (t : TAType) (len : Nat) : List Int :=
  match dv.writes.find? (fun w => w.1 = off &&
      match w.2 with | .taData t' es => t' = t && es.length = len | _ => false) with
  | some (_, .taData _ es) => es
  | _ => List.replicate len 0

/-- DataView.getFloat64 with the real bounds check. -/
def DV.getF64 (dv : DV) (off : Nat) : Except Err JSNum :=
  if off + 8 ≤ dv.byteLength then .ok (dv.getF64val off) else .error .rangeError

/-- DataView.getUint32 with the real bounds check. -/
def DV.getU32 (dv : DV) (off : Nat) : Except Err Nat :=
  if off + 4 ≤ dv.byteLength then .ok (dv.getU32val off) else .error .rangeError

/-- DataView.getUint8 with the real bounds check. -/
def DV.getU8 (dv : DV) (off : Nat) : Except Err Nat :=
  if off + 1 ≤ dv.byteLength then .ok (dv.getU8val off) else .error .rangeError

/-- DataView.getBigInt64 with the real bounds check. -/
def DV.getI64 (dv : DV) (off : Nat) : Except Err Int :=
  if off + 8 ≤ dv.byteLength then .ok (dv.getI64val off) else .error .rangeError

/-- The 32-bit version counter stored at segment bytes 0-3. -/
def DV.version (dv : DV) : Nat := dv.getU32val 0

/-- Atomics.add(new Int32Array(sab, 0, 1), 0, 1): atomically increment
the version counter, wrapping at 2^32. Constructing the Int32Array
requires at least 4 bytes. -/
def DV.bumpVersion (dv : DV) : WResult :=
  if 4 ≤ dv.byteLength then dv.setU32 0 ((dv.version + 1) % 2 ^ 32)
  else (dv, some .rangeError)

/-! ### JavaScript value semantics used by the source -/

/-- JS truthiness (`v ? 1 : 0` in the Boolean setter). -/
def toBool : JSValue → Bool
  | .vNull => false
  | .vUndefined => false
  | .vNum (.val i) => i ≠ 0
  | .vNum .nan => false
  | .vStr s => s ≠ ""
  | .vBool b => b
  | .vBigInt i => i ≠ 0
  | _ => true

/-- JS ToNumber as applied by `DataView.setFloat64`: BigInt throws a
TypeError, everything else coerces (objects, arrays and non-numeric
strings to NaN; a Date to its epoch milliseconds). String-to-number
parsing is modelled as NaN; no theorem feeds a numeric string to a
Number slot. -/
def toNumberE : JSValue → Except Err JSNum
  | .vNum n => .ok n
  | .vNull => .ok (.val 0)
  | .vBool b => .ok (.val (if b then 1 else 0))
  | .vUndefined => .ok .nan
  | .vStr _ => .ok .nan
  | .vBigInt _ => .error .typeError
  | .vDate ms => .ok (.val ms)
  | .vTypedArray _ _ => .ok .nan
  | .vArr _ => .ok .nan
  | .vObj _ => .ok .nan

/-- JS ToBigInt as applied by `DataView.setBigInt64`: BigInts pass
through, Booleans convert, numbers (and the remaining kinds, whose
conversions no theorem exercises) throw a TypeError. -/
def toBigIntE : JSValue → Except Err Int
  | .vBigInt i => .ok i
  | .vBool b => .ok (if b then 1 else 0)
  | _ => .error .typeError

/-- JS strict equality (`===`) as invoked by the diff comparison: value
equality on primitives (NaN equal to nothing, including itself) and
reference equality on objects, arrays, dates and typed arrays. The diff
engine always compares a freshly decoded old value against a caller
value, so two composite operands are never the same heap reference;
composite comparisons are therefore modelled as false. -/
def strictEq : JSValue → JSValue → Bool
  | .vNull, .vNull => true
  | .vUndefined, .vUndefined => true
  | .vNum (.val a), .vNum (.val b) => a = b
  | .vStr a, .vStr b => a = b
  | .vBool a, .vBool b => a = b
  | .vBigInt a, .vBigInt b => a = b
  | _, _ => false

/-- Own enumerable keys (`Object.keys`) of a value after the `|| {}`
default: field names for plain objects, index strings for arrays,
nothing for primitives, null and undefined. (A string operand would
expose index keys; no descriptor-conforming execution reaches that
case.) -/
def jsOwnKeys : JSValue → List String
  | .vObj fs => fs.map Prod.fst
  | .vArr es => (List.range es.length).map toString
  | _ => []

/-- Splitting a character list at separator characters, keeping empty
segments, with JavaScript `String.prototype.split` semantics. -/
def splitChars (p : Char → Bool) : List Char → List (List Char)
  | [] => [[]]
  | c :: cs =>
    let r := splitChars p cs
    if p c then [] :: r
    else
      match r with
      | [] => [[c]]
      | seg :: rest => (c :: seg) :: rest

/-- JavaScript `s.split(sep)` for a character predicate. -/
def jsSplit (s : String) (p : Char → Bool) : List String :=
  (splitChars p s.data).map (fun l => ⟨l⟩)

/-- Parse a canonical decimal numeral, as JS array index access and the
`!isNaN(Number(part))` test treat canonical numeric path segments. -/
def strToNat? (s : String) : Option Nat :=
  if s.data ≠ [] ∧ s.data.all (fun c => c.isDigit) then
    some (s.data.foldl (fun acc c => acc * 10 + (c.toNat - 48)) 0)
  else none

/-- Property read `v?.[key]` as used by the diff and path walks:
undefined for a missing key or a non-container base. -/
def jsGetProp (v : JSValue) (key : String) : JSValue :=
  match v with
  | .vObj fs => (fs.lookup key).getD .vUndefined
  | .vArr es =>
    match strToNat? key with
    | some i => if toString i = key then es.getD i .vUndefined else .vUndefined
    | none => .vUndefined
  | .vTypedArray _ es =>
    match strToNat? key with
    | some i => if toString i = key then
        match es.get? i with
        | some e => .vNum (.val e)
        | none => .vUndefined
      else .vUndefined
    | none => .vUndefined
  | _ => .vUndefined

/-- Array length after the `|| []` default (`(v || []).length`). -/
def jsArrLen : JSValue → Nat
  | .vArr es => es.length
  | _ => 0

/-- Element read `(v || [])[i]` in the diff's array walk. -/
def jsArrGet (v : JSValue) (i : Nat) : JSValue :=
  match v with
  | .vArr es => es.getD i .vUndefined
  | _ => .vUndefined

/-- Fields contributed by spreading a value (`{ ...v }`): the own
enumerable fields of a plain object, nothing for the other kinds the
theorems exercise. -/
def spreadFields : JSValue → List (String × JSValue)
  | .vObj fs => fs
  | _ => []

/-- JS object property assignment `o[key] = v`: update the existing key
in place, else append in insertion order. -/
def objSet (o : JSValue) (key : String) (v : JSValue) : JSValue :=
  match o with
  | .vObj fs =>
    if fs.any (fun f => f.1 = key) then
      .vObj (fs.map (fun f => if f.1 = key then (f.1, v) else f))
    else .vObj (fs ++ [(key, v)])
  | .vArr es =>
    match strToNat? key with
    | some i => if toString i = key ∧ i < es.length then .vArr (es.set i v) else o
    | none => o
  | _ => o

/-- Object spread merge `{ ...current, ...partial }` from
`View.prototype.patch`. -/
def spreadMerge (current partial_ : JSValue) : JSValue :=
  (spreadFields partial_).foldl (fun acc f => objSet acc f.1 f.2) (.vObj (spreadFields current))

/-! ### utils.ts -/

mutual

/-- hasUndefined from utils.ts: true when the value is undefined or any
nested plain-object property or array element is; typed arrays and
non-object primitives never are. -/
def hasUndefined : JSValue → Bool
  | .vUndefined => true
  | .vNull => false
  | .vNum _ => false
  | .vStr _ => false
  | .vBool _ => false
  | .vBigInt _ => false
  | .vDate _ => false
  | .vTypedArray _ _ => false
  | .vArr es => hasUndefinedList es
  | .vObj fs => hasUndefinedFields fs

/-- value.some(hasUndefined) over an array's elements. -/
def hasUndefinedList : List JSValue → Bool
  | [] => false
  | v :: vs => hasUndefined v || hasUndefinedList vs

/-- Object.values(value).some(hasUndefined) over an object's fields. -/
def hasUndefinedFields : List (String × JSValue) → Bool
  | [] => false
  | f :: fs => hasUndefined f.2 || hasUndefinedFields fs

end

/-! ### Path strings -/

/-- Child path for an object field (`path ? path.key : key`). -/
def joinField (path key : String) : String :=
  if path = "" then key else path ++ "." ++ key

/-- Child path for an array element at index `i`. -/
def idxPath (path : String) (i : Nat) : String :=
  path ++ "[" ++ toString i ++ "]"

/-- Path split on `.`, `[` and `]` with empties removed, from
getValueByPath and getDescriptor. -/
def splitPath (path : String) : List String :=
  (jsSplit path fun c => c = '.' || c = '[' || c = ']').filter (fun p => p ≠ "")

/-- Last dot-segment of a path (`path.split('.').pop()`), used by
traverseDescriptor as the property name to assign. -/
def lastSeg (path : String) : String :=
  ((jsSplit path fun c => c = '.').getLast?).getD ""

/-- getValueByPath from schema-compiler.ts: walk the split path,
returning undefined as soon as a segment is missing. -/
def getValueByPath (data : JSValue) (path : String) : JSValue :=
  go data (splitPath path)
where
  /-- Per-segment loop of getValueByPath. -/
  go : JSValue → List String → JSValue
    | cur, [] => cur
    | cur, p :: ps =>
      let nxt := jsGetProp cur p
      match nxt with
      | .vUndefined => .vUndefined
      | _ => go nxt ps

/-! ### Descriptor model (types.ts) -/

/-- Descriptor node kind (the `type` field of a Descriptor). -/
inductive DescKind where
  | Primitive | Object | Array | TypedArray
deriving DecidableEq, Repr

/-- The `dataType` of a Primitive or TypedArray descriptor. -/
inductive DataType where
  | number | string | boolean | nullT | undefinedT | bigint | date
  | ta (t : TAType)
deriving DecidableEq, Repr

/-- Descriptor from types.ts: node kind, absolute byte offset, byte size,
optional dataType, ordered children (field name, or the synthetic key
`[]` for the array element shape) and optional sample length. -/
inductive Descriptor where
  | mk (ty : DescKind) (byteOffset : Nat) (byteSize : Nat) (dataType : Option DataType)
      (children : List (String × Descriptor)) (length : Option Nat)

/-- Node kind of a descriptor. -/
def Descriptor.ty : Descriptor → DescKind
  | .mk t _ _ _ _ _ => t

/-- Absolute byte offset of a descriptor. -/
def Descriptor.byteOffset : Descriptor → Nat
  | .mk _ o _ _ _ _ => o

/-- Byte size of a descriptor, descendants included. -/
def Descriptor.byteSize : Descriptor → Nat
  | .mk _ _ s _ _ _ => s

/-- dataType of a descriptor. -/
def Descriptor.dataType : Descriptor → Option DataType
  | .mk _ _ _ d _ _ => d

/-- Ordered children of a descriptor. -/
def Descriptor.children : Descriptor → List (String × Descriptor)
  | .mk _ _ _ _ c _ => c

/-- Sample length of an Array/TypedArray descriptor. -/
def Descriptor.length : Descriptor → Option Nat
  | .mk _ _ _ _ _ l => l

/-- Copy of a descriptor with its byteSize replaced (the in-place
`child.byteSize = Math.max(...)` mutation of the array inference). -/
def Descriptor.withByteSize : Descriptor → Nat → Descriptor
  | .mk t o _ d c l, s => .mk t o s d c l

/-- Behaviour of one field template's setter/getter closure pair. Every
leaf closure in the source reads the shared mutable `currentOffset`
variable of `inferSchema` at call time; since the closures only ever run
after inference finishes, that read always yields the cursor's final
value, which the embedding passes in explicitly (`finalCursor`). Only
the Array closures capture their own `const offset` by value. -/
inductive SetterKind where
  | number
  | string
  | boolean
  | bigint
  | date
  | typedArray (t : TAType)
  | array (offset : Nat)
  | object
deriving DecidableEq, Repr

/-- Template entry from types.ts; the source stores the field's path in
the field named `type`, modelled here as `ty`. -/
structure TemplateEntry where
  offset : Nat
  ty : String
  size : Nat
  kind : SetterKind
deriving DecidableEq, Repr

/-- flatIndex entry: `{ offset, type }` where `type` is a type-name tag
such as "Number" or "Array". -/
structure FlatIndexEntry where
  offset : Nat
  ty : String
deriving DecidableEq, Repr

/-- typedArrayViews entry: `{ type, offset, length }`. -/
structure TAViewEntry where
  ty : TAType
  offset : Nat
  length : Nat
deriving DecidableEq, Repr

/-- List-backed JS Map: `set` overwrites an existing key in place, else
appends in insertion order. -/
def mapSet {α : Type} (m : List (String × α)) (k : String) (v : α) : List (String × α) :=
  if m.any (fun e => e.1 = k) then m.map (fun e => if e.1 = k then (k, v) else e)
  else m ++ [(k, v)]

/-- Schema from types.ts plus `finalCursor`: the value the shared mutable
`currentOffset` variable holds once inference has finished, which every
leaf setter/getter closure observes when invoked. -/
structure Schema where
  descriptorTree : Descriptor
  byteSize : Nat
  flatIndex : List (String × FlatIndexEntry)
  encodingTemplate : List TemplateEntry
  typedArrayViews : List (String × TAViewEntry)
  finalCursor : Nat

/-! ### Schema inference (schema-inference.ts) -/

/-- Mutable state of `inferSchema`: the running offset cursor and the
three indices the nested `inferDescriptor` closure appends to. -/
structure InferState where
  currentOffset : Nat
  flatIndex : List (String × FlatIndexEntry)
  encodingTemplate : List TemplateEntry
  typedArrayViews : List (String × TAViewEntry)

/-- Record a leaf field: set its flat-index entry, push its template and
advance the cursor by `size`. -/
def InferState.pushLeaf (st : InferState) (path : String) (tyTag : String) (size : Nat)
    (kind : SetterKind) : InferState :=
  { currentOffset := st.currentOffset + size
    flatIndex := mapSet st.flatIndex path ⟨st.currentOffset, tyTag⟩
    encodingTemplate := st.encodingTemplate ++ [⟨st.currentOffset, path, size, kind⟩]
    typedArrayViews := st.typedArrayViews }

mutual

/-- inferDescriptor from schema-inference.ts: walk the sample value,
assigning ascending offsets from the shared cursor and registering
flat-index entries, encoding templates and typed-array views. The
setter/getter closures are represented by `SetterKind`; see its
documentation for the `currentOffset` capture. -/
def inferDescriptor : JSValue → String → InferState → Descriptor × InferState
  | .vNull, _, st => (.mk .Primitive st.currentOffset 0 (some .nullT) [] none, st)
  | .vUndefined, _, st => (.mk .Primitive st.currentOffset 0 (some .undefinedT) [] none, st)
  | .vNum _, path, st =>
    (.mk .Primitive st.currentOffset 8 (some .number) [] none,
     st.pushLeaf path "Number" 8 .number)
  | .vStr s, path, st =>
    let size := 4 + s.utf8ByteSize
    (.mk .Primitive st.currentOffset size (some .string) [] none,
     st.pushLeaf path "String" size .string)
  | .vBool _, path, st =>
    (.mk .Primitive st.currentOffset 1 (some .boolean) [] none,
     st.pushLeaf path "Boolean" 1 .boolean)
  | .vBigInt _, path, st =>
    (.mk .Primitive st.currentOffset 8 (some .bigint) [] none,
     st.pushLeaf path "BigInt" 8 .bigint)
  | .vDate _, path, st =>
    (.mk .Primitive st.currentOffset 8 (some .date) [] none,
     st.pushLeaf path "Date" 8 .date)
  | .vTypedArray t es, path, st =>
    let size := 4 + es.length * t.byteSize
    let st' := st.pushLeaf path t.name size (.typedArray t)
    let st'' : InferState :=
      { st' with typedArrayViews := mapSet st'.typedArrayViews path ⟨t, st.currentOffset, es.length⟩ }
    (.mk .TypedArray st.currentOffset size (some (.ta t)) [] (some es.length), st'')
  | .vArr es, path, st =>
    let offset := st.currentOffset
    let st1 : InferState := { st with currentOffset := st.currentOffset + 4 }
    let (child, st2) :=
      match es with
      | [] => ((.mk .Primitive 0 0 (some .nullT) [] none : Descriptor), st1)
      | e0 :: rest =>
        let (c0, stc) := inferDescriptor e0 (path ++ "[]") st1
        let (maxSize, str) := inferArrayRest rest path 1 c0.byteSize stc
        (c0.withByteSize maxSize, str)
    let size := 4 + es.length * child.byteSize
    let st3 : InferState :=
      { st2 with
        flatIndex := mapSet st2.flatIndex path ⟨offset, "Array"⟩
        encodingTemplate := st2.encodingTemplate ++ [⟨offset, path, size, .array offset⟩] }
    (.mk .Array offset size none [("[]", child)] (some es.length), st3)
  | .vObj fs, path, st =>
    let offset := st.currentOffset
    let (children, byteSize, st1) := inferObjectFields fs path offset st
    let st2 : InferState :=
      { st1 with
        flatIndex := mapSet st1.flatIndex path ⟨offset, "Object"⟩
        encodingTemplate := st1.encodingTemplate ++ [⟨offset, path, byteSize, .object⟩] }
    (.mk .Object offset byteSize none children none, st2)

/-- The `for (let i = 1; i < length; i++)` loop of the array case:
infer items 1.. at paths `path[i]` (registering their own entries and
advancing the cursor) and accumulate the maximum item byte size. -/
def inferArrayRest : List JSValue → String → Nat → Nat → InferState → Nat × InferState
  | [], _, _, maxSize, st => (maxSize, st)
  | e :: rest, path, i, maxSize, st =>
    let (d, st') := inferDescriptor e (idxPath path i) st
    inferArrayRest rest path (i + 1) (max maxSize d.byteSize) st'

/-- The `Object.entries` loop of the object case: infer children in
enumeration order, accumulating the byteSize maximum
`child.byteOffset + child.byteSize - offset`. -/
def inferObjectFields : List (String × JSValue) → String → Nat → InferState →
    List (String × Descriptor) × Nat × InferState
  | [], _, _, st => ([], 0, st)
  | (key, val) :: rest, path, offset, st =>
    let childPath := joinField path key
    let (child, st') := inferDescriptor val childPath st
    let (others, restSize, st'') := inferObjectFields rest path offset st'
    ((key, child) :: others, max (child.byteOffset + child.byteSize - offset) restSize, st'')

end

/-- inferSchema: run the descriptor walk from offset 8 (bytes 0-3 version
counter, 4-7 schema id) and package the schema; `finalCursor` records the
cursor's final value, which the leaf closures observe. -/
def inferSchema (data : JSValue) : Schema :=
  let (tree, st) := inferDescriptor data "" ⟨8, [], [], []⟩
  { descriptorTree := tree
    byteSize := max st.currentOffset 8
    flatIndex := st.flatIndex
    encodingTemplate := st.encodingTemplate
    typedArrayViews := st.typedArrayViews
    finalCursor := st.currentOffset }

/-! ### Field template closures -/

/-- JS ToString as performed by `TextEncoder.encode` on a non-string
argument; only string arguments are exercised by the theorems. -/
def jsToString : JSValue → String
  | .vStr s => s
  | .vUndefined => "undefined"
  | .vNull => "null"
  | .vBool b => if b then "true" else "false"
  | .vNum (.val i) => toString i
  | .vNum .nan => "NaN"
  | .vBigInt i => toString i
  | _ => "[object]"

/-- Run one field template's setter closure. `finalCursor` is the value
the shared mutable `currentOffset` variable holds at call time (its final
value, since the closures only run after inference); every leaf setter
writes there, while the Array setter uses its own captured `const
offset` and the Object setter is a no-op. -/
def runSetter (finalCursor : Nat) : SetterKind → DV → JSValue → WResult
  | .number, dv, v =>
    match toNumberE v with
    | .error e => (dv, some e)
    | .ok n => dv.setF64 finalCursor n
  | .string, dv, v =>
    let s := jsToString v
    match dv.setU32 finalCursor s.utf8ByteSize with
    | (dv', none) => dv'.setStrBytes (finalCursor + 4) s
    | r => r
  | .boolean, dv, v => dv.setU8 finalCursor (if toBool v then 1 else 0)
  | .bigint, dv, v =>
    match toBigIntE v with
    | .error e => (dv, some e)
    | .ok i => dv.setI64 finalCursor i
  | .date, dv, v =>
    match v with
    | .vDate ms => dv.setI64 finalCursor ms
    | _ => (dv, some .typeError)
  | .typedArray t, dv, v =>
    match v with
    | .vTypedArray _ es =>
      match dv.setU32 finalCursor es.length with
      | (dv', none) => dv'.setTaData (finalCursor + 4) t es
      | r => r
    | _ => (dv, some .typeError)
  | .array offset, dv, v =>
    match v with
    | .vArr es => dv.setU32 offset es.length
    | .vTypedArray _ es => dv.setU32 offset es.length
    | .vNull => (dv, some .typeError)
    | .vUndefined => (dv, some .typeError)
    | _ => dv.setU32 offset 0
  | .object, dv, _ => (dv, none)

/-- Run one field template's getter closure; like the setters, the leaf
getters read at the shared cursor's final value. -/
def runGetter (finalCursor : Nat) : SetterKind → DV → Except Err JSValue
  | .number, dv => (dv.getF64 finalCursor).map .vNum
  | .string, dv => do
    let len ← dv.getU32 finalCursor
    if finalCursor + 4 + len ≤ dv.byteLength then
      pure (.vStr (dv.readStr (finalCursor + 4) len))
    else throw .rangeError
  | .boolean, dv => (dv.getU8 finalCursor).map (fun n => .vBool (decide (n ≠ 0)))
  | .bigint, dv => (dv.getI64 finalCursor).map .vBigInt
  | .date, dv => (dv.getI64 finalCursor).map .vDate
  | .typedArray t, dv => do
    let len ← dv.getU32 finalCursor
    if finalCursor + 4 + len * t.byteSize ≤ dv.byteLength then
      pure (.vTypedArray t (dv.readTa (finalCursor + 4) t len))
    else throw .rangeError
  | .array offset, dv => do
    let len ← dv.getU32 offset
    pure (.vArr (List.replicate len .vUndefined))
  | .object, _ => .ok (.vObj [])

/-! ### Schema compiler (schema-compiler.ts) -/

/-- Patch from types.ts; `op` is the operation string. -/
structure Patch where
  op : String
  path : String
  value : JSValue

/-- Loop body of the compiled `encode`: iterate the encoding template in
schema order, skipping entries not in the dirty set when one is given,
resolving each entry's value by path (missing value throws) and invoking
the bound setter. A mid-loop throw leaves the writes already made. -/
def encodeLoop (finalCursor : Nat) (data : JSValue) (dirty : Option (List String)) :
    List TemplateEntry → DV → WResult
  | [], dv => (dv, none)
  | e :: rest, dv =>
    match dirty with
    | some ds =>
      if ds.contains e.ty then
        match getValueByPath data e.ty with
        | .vUndefined => (dv, some .missingValue)
        | value =>
          match runSetter finalCursor e.kind dv value with
          | (dv', none) => encodeLoop finalCursor data dirty rest dv'
          | r => r
      else encodeLoop finalCursor data dirty rest dv
    | none =>
      match getValueByPath data e.ty with
      | .vUndefined => (dv, some .missingValue)
      | value =>
        match runSetter finalCursor e.kind dv value with
        | (dv', none) => encodeLoop finalCursor data dirty rest dv'
        | r => r

/-- Compiled `encode(data, dv, dirtyFields?)` from compileFunctions. -/
def Compiled.encode (schema : Schema) (data : JSValue) (dv : DV)
    (dirty : Option (List String)) : WResult :=
  encodeLoop schema.finalCursor data dirty schema.encodingTemplate dv

/-- Compiled `set(path, value, dv)` from compileFunctions: look the path
up in the flat index, then find the template whose path (stored in its
`type` field) equals the flat-index entry's `type` tag — which is a type
name such as "Number", so the find only succeeds for a field whose own
path happens to equal a type-name string — and invoke its setter. -/
def Compiled.set (schema : Schema) (path : String) (value : JSValue) (dv : DV) : WResult :=
  match schema.flatIndex.lookup path with
  | none => (dv, some .invalidPath)
  | some entry =>
    match schema.encodingTemplate.find? (fun t => t.ty = entry.ty) with
    | none => (dv, some .noTemplateForPath)
    | some t => runSetter schema.finalCursor t.kind dv value

/-- readPrimitive from schema-compiler.ts. -/
def readPrimitive (dv : DV) (offset : Nat) (dt : DataType) : Except Err JSValue :=
  if dv.byteLength ≤ offset then .error .invalidOffset
  else
    match dt with
    | .number => (dv.getF64 offset).map .vNum
    | .string => do
      let len ← dv.getU32 offset
      if dv.byteLength < offset + 4 + len then throw .stringLengthExceeds
      pure (.vStr (dv.readStr (offset + 4) len))
    | .boolean => (dv.getU8 offset).map (fun n => .vBool (decide (n ≠ 0)))
    | .bigint => (dv.getI64 offset).map .vBigInt
    | .date => (dv.getI64 offset).map .vDate
    | .nullT => .ok .vNull
    | .undefinedT => .ok .vUndefined
    | .ta _ => .error .unsupportedPrimitive

/-- A value looked up in an association list is smaller than the list. -/
theorem sizeOf_lookup_lt {l : List (String × Descriptor)} {k : String} {d : Descriptor}
    (h : l.lookup k = some d) : sizeOf d < sizeOf l := by
  induction l with
  | nil => simp [List.lookup] at h
  | cons hd tl ih =>
    rw [List.lookup] at h
    split at h
    · cases h
      cases hd
      simp
      omega
    · have := ih h
      cases hd
      simp
      omega

mutual

/-- traverseDescriptor from schema-compiler.ts: decode into the mutable
`result` container. Note the Object case hands each child a freshly
created `result[key] = {}` container, so a Primitive child's
`result[path.split('.').pop()] = value` assignment lands one level too
deep, and the Array item loop passes the array container whose element
writes (string-keyed) never hit array indices. -/
def traverseDescriptor (d : Descriptor) (dv : DV) (offset : Nat) (result : JSValue)
    (path : String) : Except Err JSValue :=
  if dv.byteLength ≤ offset then .error .invalidOffset
  else
    match d with
    | .mk .Primitive _ _ dataType _ _ =>
      match dataType with
      | none => .error .missingDataType
      | some dt =>
        match readPrimitive dv offset dt with
        | .error e => .error e
        | .ok v => .ok (objSet result (lastSeg path) v)
    | .mk .Object _ _ _ children _ => traverseObjChildren children dv offset result path
    | .mk .Array _ _ _ children _ =>
      match dv.getU32 offset with
      | .error e => .error e
      | .ok len =>
        match h : children.lookup "[]" with
        | none => .error .typeError
        | some child =>
          if dv.byteLength < offset + 4 + len * child.byteSize then .error .arrayLengthExceeds
          else
            match traverseArrItems child dv offset path 0 len
                (.vArr (List.replicate len .vUndefined)) with
            | .error e => .error e
            | .ok c => .ok (objSet result (lastSeg path) c)
    | .mk .TypedArray _ _ dataType _ _ =>
      match dataType with
      | some (.ta t) =>
        match dv.getU32 offset with
        | .error e => .error e
        | .ok len =>
          if dv.byteLength < offset + 4 + len * t.byteSize then .error .typedArrayLengthExceeds
          else .ok (objSet result (lastSeg path) (.vTypedArray t (dv.readTa (offset + 4) t len)))
      | _ => .error .typeError
termination_by (sizeOf d, 0)
decreasing_by
  · apply Prod.Lex.left
    simp
    omega
  · apply Prod.Lex.left
    have := sizeOf_lookup_lt h
    simp at this ⊢
    omega

/-- The Object.entries loop of traverseDescriptor's Object case. -/
def traverseObjChildren (children : List (String × Descriptor)) (dv : DV) (offset : Nat)
    (result : JSValue) (path : String) : Except Err JSValue :=
  match children with
  | [] => .ok result
  | (key, child) :: rest =>
    match traverseDescriptor child dv (offset + child.byteOffset) (.vObj []) (joinField path key) with
    | .error e => .error e
    | .ok sub => traverseObjChildren rest dv offset (objSet result key sub) path
termination_by (sizeOf children, 0)
decreasing_by
  · apply Prod.Lex.left
    try simp
    try omega
  · apply Prod.Lex.left
    try simp
    try omega

/-- The item loop of traverseDescriptor's Array case, threading the
array container through `n` remaining items starting at index `i`. -/
def traverseArrItems (child : Descriptor) (dv : DV) (offset : Nat) (path : String)
    (i n : Nat) (container : JSValue) : Except Err JSValue :=
  match n with
  | 0 => .ok container
  | m + 1 =>
    match traverseDescriptor child dv (offset + 4 + i * child.byteSize) container (idxPath path i) with
    | .error e => .error e
    | .ok c => traverseArrItems child dv offset path (i + 1) m c
termination_by (sizeOf child + 1, n)
decreasing_by
  · apply Prod.Lex.left
    omega
  · apply Prod.Lex.right
    omega

end

/-- Compiled `decode(dv)` from compileFunctions: recursive descent from
offset 0 into a fresh result object. -/
def Compiled.decode (schema : Schema) (dv : DV) : Except Err JSValue :=
  traverseDescriptor schema.descriptorTree dv 0 (.vObj []) ""

/-! ### View core (view-core.js) -/

mutual

/-- readValue from view-core.js, used by decodePartial: unlike
traverseDescriptor it returns properly structured values, though its
Object case adds the child's absolute byteOffset to the running
absolute offset. Its Primitive switch is the same as readPrimitive. -/
def readValue (dv : DV) (d : Descriptor) (offset : Nat) : Except Err JSValue :=
  if dv.byteLength ≤ offset then .error .invalidOffset
  else
    match d with
    | .mk .Primitive _ _ dataType _ _ =>
      match dataType with
      | none => .error .missingDataType
      | some dt => readPrimitive dv offset dt
    | .mk .Object _ _ _ children _ =>
      match readValueObj dv children offset with
      | .error e => .error e
      | .ok fs => .ok (.vObj fs)
    | .mk .Array _ _ _ children _ =>
      match dv.getU32 offset with
      | .error e => .error e
      | .ok len =>
        match h : children.lookup "[]" with
        | none => .error .typeError
        | some child =>
          if dv.byteLength < offset + 4 + len * child.byteSize then .error .arrayLengthExceeds
          else
            match readValueArr dv child offset 0 len with
            | .error e => .error e
            | .ok es => .ok (.vArr es)
    | .mk .TypedArray _ _ dataType _ _ =>
      match dataType with
      | some (.ta t) =>
        match dv.getU32 offset with
        | .error e => .error e
        | .ok len =>
          if dv.byteLength < offset + 4 + len * t.byteSize then .error .typedArrayLengthExceeds
          else .ok (.vTypedArray t (dv.readTa (offset + 4) t len))
      | _ => .error .typeError
termination_by (sizeOf d, 0)
decreasing_by
  · apply Prod.Lex.left
    try simp
    try omega
  · apply Prod.Lex.left
    have := sizeOf_lookup_lt h
    try simp at this ⊢
    try omega

/-- The Object.entries loop of readValue's Object case. -/
def readValueObj (dv : DV) (children : List (String × Descriptor)) (offset : Nat) :
    Except Err (List (String × JSValue)) :=
  match children with
  | [] => .ok []
  | (key, child) :: rest =>
    match readValue dv child (offset + child.byteOffset) with
    | .error e => .error e
    | .ok v =>
      match readValueObj dv rest offset with
      | .error e => .error e
      | .ok fs => .ok ((key, v) :: fs)
termination_by (sizeOf children, 0)
decreasing_by
  · apply Prod.Lex.left
    try simp
    try omega
  · apply Prod.Lex.left
    try simp
    try omega

/-- The index loop of readValue's Array case, reading `n` elements
starting at index `i`. -/
def readValueArr (dv : DV) (child : Descriptor) (offset : Nat) (i n : Nat) :
    Except Err (List JSValue) :=
  match n with
  | 0 => .ok []
  | m + 1 =>
    match readValue dv child (offset + 4 + i * child.byteSize) with
    | .error e => .error e
    | .ok v =>
      match readValueArr dv child offset (i + 1) m with
      | .error e => .error e
      | .ok es => .ok (v :: es)
termination_by (sizeOf child + 1, n)
decreasing_by
  · apply Prod.Lex.left
    omega
  · apply Prod.Lex.right
    omega

end

/-- getDescriptor from view-core.js: walk the split path down the
descriptor tree (Object by field name, Array by numeric index to the
single `[]` element descriptor). -/
def getDescriptor (schema : Schema) (path : String) : Except Err Descriptor :=
  go (splitPath path) schema.descriptorTree
where
  /-- Per-segment loop of getDescriptor. -/
  go : List String → Descriptor → Except Err Descriptor
    | [], cur => .ok cur
    | part :: rest, cur =>
      match cur with
      | .mk .Object _ _ _ children _ =>
        match children.lookup part with
        | none => .error .invalidPathSegment
        | some nxt => go rest nxt
      | .mk .Array _ _ _ children _ =>
        if (strToNat? part).isSome then
          match children.lookup "[]" with
          | none => .error .invalidPathSegment
          | some nxt => go rest nxt
        else .error .invalidPathSegment
      | _ => .error .invalidPathSegment

/-- View state: its inferred schema and the mutability option. The
compiled functions are pure functions of the schema in this embedding. -/
structure View where
  schema : Schema
  mutable : Bool

/-- View construction (`new View(data, options)`): infer the schema once
from the sample. -/
def mkView (sample : JSValue) (mutable : Bool) : View :=
  ⟨inferSchema sample, mutable⟩

/-! ### View encode/decode (view-encode-decode.ts) and mutations
(view-mutations.js) -/

/-- View.prototype.encode: size check, the immutable-size check (note:
not a mutability check), the blanket hasUndefined rejection, then the
compiled encode invoked with a freshly created empty dirty set —
`new Set()` — so every template entry is skipped, and finally the atomic
version increment. -/
def View.encode (view : View) (data : JSValue) (dv : DV) : WResult :=
  if dv.byteLength < view.schema.byteSize then (dv, some .bufferTooSmall)
  else if view.mutable = false ∧ view.schema.byteSize ≠ dv.byteLength then
    (dv, some .immutableSizeMismatch)
  else if hasUndefined data then (dv, some .undefinedNotAllowed)
  else
    match Compiled.encode view.schema data dv (some []) with
    | (dv', none) => dv'.bumpVersion
    | r => r

/-- View.prototype.decode: size check then the compiled decode. -/
def View.decode (view : View) (dv : DV) : Except Err JSValue :=
  if dv.byteLength < view.schema.byteSize then .error .bufferTooSmall
  else Compiled.decode view.schema dv

/-- View.prototype.decodePartial: size check, flat-index lookup, then
readValue at the entry's offset with the path's descriptor. -/
def View.decodePartial (view : View) (path : String) (dv : DV) : Except Err JSValue :=
  if dv.byteLength < view.schema.byteSize then .error .bufferTooSmall
  else
    match view.schema.flatIndex.lookup path with
    | none => .error .invalidPath
    | some entry =>
      match getDescriptor view.schema path with
      | .error e => .error e
      | .ok d => readValue dv d entry.offset

/-- View.prototype.set: mutability check, size check, compiled set, then
the atomic version increment. -/
def View.set (view : View) (path : String) (value : JSValue) (dv : DV) : WResult :=
  if view.mutable = false then (dv, some .cannotMutateImmutable)
  else if dv.byteLength < view.schema.byteSize then (dv, some .bufferTooSmall)
  else
    match Compiled.set view.schema path value dv with
    | (dv', none) => dv'.bumpVersion
    | r => r

/-- The Object.entries loop of View.prototype.bulkSet: each entry runs
the compiled set; a throw mid-loop leaves the earlier writes. -/
def bulkSetLoop (schema : Schema) : List (String × JSValue) → DV → WResult
  | [], dv => (dv, none)
  | (path, value) :: rest, dv =>
    match Compiled.set schema path value dv with
    | (dv', none) => bulkSetLoop schema rest dv'
    | r => r

/-- View.prototype.bulkSet: mutability check, size check, the per-entry
compiled set loop, then a single atomic version increment. -/
def View.bulkSet (view : View) (entries : List (String × JSValue)) (dv : DV) : WResult :=
  if view.mutable = false then (dv, some .cannotMutateImmutable)
  else if dv.byteLength < view.schema.byteSize then (dv, some .bufferTooSmall)
  else
    match bulkSetLoop view.schema entries dv with
    | (dv', none) => dv'.bumpVersion
    | r => r

/-- View.prototype.patch: mutability check, size check, decodePartial of
the current value, object-spread merge with the partial value, then
View.set (which re-checks and increments the version once). -/
def View.patch (view : View) (path : String) (partial_ : JSValue) (dv : DV) : WResult :=
  if view.mutable = false then (dv, some .cannotMutateImmutable)
  else if dv.byteLength < view.schema.byteSize then (dv, some .bufferTooSmall)
  else
    match View.decodePartial view path dv with
    | .error e => (dv, some e)
    | .ok current => View.set view path (spreadMerge current partial_) dv

/-- View.prototype.getTypedArray from view-accessors.ts: size check,
typed-array view lookup, then a zero-copy typed-array construction over
the buffer at `offset + 4` (bounds-checked by the constructor); returns
the view's coordinates. Performs no writes. -/
def View.getTypedArray (view : View) (path : String) (dv : DV) :
    Except Err (TAType × Nat × Nat) :=
  if dv.byteLength < view.schema.byteSize then .error .bufferTooSmall
  else
    match view.schema.typedArrayViews.lookup path with
    | none => .error .noTypedArrayAtPath
    | some v =>
      if dv.byteLength < v.offset + 4 + v.length * v.ty.byteSize then .error .rangeError
      else .ok (v.ty, v.offset + 4, v.length)

/-! ### Diff/patch engine (schema-diff-patch.ts, compareValues in
schema-compiler.ts) -/

/-- Ordered concatenation of per-item patch lists, modelling pushes into
the shared `patches` array in traversal order. -/
def listCollect {α β : Type} (f : α → List β) : List α → List β
  | [] => []
  | a :: as => f a ++ listCollect f as

/-- Iteration order of `new Set([...oldKeys, ...newKeys])`: first
occurrence of each element, in insertion order. -/
def jsSetDedup : List String → List String
  | [] => []
  | a :: as => a :: jsSetDedup (as.filter (fun b => b ≠ a))
termination_by l => l.length
decreasing_by
  simp
  exact Nat.lt_succ_of_le (List.length_filter_le _ _)

mutual

/-- compareValues / the nested `compare` of diff: identical strict-equal
values short-circuit; a mismatched Primitive/TypedArray leaf emits one
replace patch with the full new value; an Object node walks the union of
both values' own keys (old first, then new-only, each once), skipping
keys absent from the descriptor; an Array node walks indexes 0 to
max(oldLength, newLength) - 1 with the single `[]` element descriptor. -/
def compareValues (path : String) (old new_ : JSValue) (desc : Descriptor) : List Patch :=
  if strictEq old new_ then []
  else
    match desc with
    | .mk .Primitive _ _ _ _ _ => [⟨"replace", path, new_⟩]
    | .mk .TypedArray _ _ _ _ _ => [⟨"replace", path, new_⟩]
    | .mk .Object _ _ _ children _ =>
      compareKeys path old new_ children (jsSetDedup (jsOwnKeys old ++ jsOwnKeys new_))
    | .mk .Array _ _ _ children _ =>
      match h : children.lookup "[]" with
      | none => []
      | some sub => compareIdx path old new_ sub 0 (max (jsArrLen old) (jsArrLen new_))
termination_by (sizeOf desc, 0)
decreasing_by
  · apply Prod.Lex.left
    try simp
    try omega
  · apply Prod.Lex.left
    have := sizeOf_lookup_lt h
    try simp at this ⊢
    try omega

/-- The key loop of the Object case: each key with a matching child
descriptor recurses with `old?.[key]` and `new?.[key]`. -/
def compareKeys (path : String) (old new_ : JSValue)
    (children : List (String × Descriptor)) : List String → List Patch
  | [] => []
  | key :: rest =>
    (match h : children.lookup key with
     | none => []
     | some sub => compareValues (joinField path key) (jsGetProp old key) (jsGetProp new_ key) sub)
    ++ compareKeys path old new_ children rest
termination_by keys => (sizeOf children, keys.length)
decreasing_by
  · apply Prod.Lex.left
    exact sizeOf_lookup_lt h
  · apply Prod.Lex.right
    try simp
    try omega

/-- The index loop of the Array case, comparing `n` remaining indexes
starting at `i` with the single element descriptor. -/
def compareIdx (path : String) (old new_ : JSValue) (sub : Descriptor) (i n : Nat) :
    List Patch :=
  match n with
  | 0 => []
  | m + 1 =>
    compareValues (idxPath path i) (jsArrGet old i) (jsArrGet new_ i) sub
      ++ compareIdx path old new_ sub (i + 1) m
termination_by (sizeOf sub + 1, n)
decreasing_by
  · apply Prod.Lex.left
    omega
  · apply Prod.Lex.right
    omega

end

/-- The exported diff of schema-diff-patch.ts: size check, decode the
old segment, run the structural comparison from the root. (The onDiff
hook only observes the result.) -/
def diff (view : View) (oldDv : DV) (newData : JSValue) : Except Err (List Patch) :=
  if oldDv.byteLength < view.schema.byteSize then .error .bufferTooSmall
  else
    match View.decode view oldDv with
    | .error e => .error e
    | .ok oldData => .ok (compareValues "" oldData newData view.schema.descriptorTree)

/-- applyPatch from schema-diff-patch.ts: mutability check, size check,
then `add`/`replace` invoke View.set with the patch value, `remove`
invokes View.set with undefined, and any other op string throws
UnsupportedPatchError. -/
def applyPatch (view : View) (dv : DV) (patch : Patch) : WResult :=
  if view.mutable = false then (dv, some .cannotApplyPatchImmutable)
  else if dv.byteLength < view.schema.byteSize then (dv, some .bufferTooSmall)
  else if patch.op = "replace" ∨ patch.op = "add" then
    View.set view patch.path patch.value dv
  else if patch.op = "remove" then
    View.set view patch.path .vUndefined dv
  else (dv, some .unsupportedPatchOp)

/-! ### ViewSync lifecycle (view-sync.ts) -/

/-- Observable state of one ViewSync handle: its identity in the
per-segment registry, the scheduled poll task handle, the per-segment
registry contents (the set of handle ids bound to this handle's
segment), the bound variable and update callback references, the bound
paths and last observed version (which destroy leaves alone), and a
count of cancelled scheduler tasks recording the external
cancelAnimationFrame/clearTimeout effect. -/
structure SyncState where
  selfId : Nat
  pollHandle : Option Nat
  registry : List Nat
  boundVariable : Option JSValue
  onUpdate : Bool
  boundPaths : List String
  lastVersion : Nat
  cancelledTasks : Nat

/-- ViewSync.destroy: cancel the scheduled task when one is pending,
remove this handle from the per-segment registry, clear the bound
variable, the update callback and the poll handle. -/
def SyncState.destroy (s : SyncState) : SyncState :=
  let s1 :=
    match s.pollHandle with
    | some _ => { s with cancelledTasks := s.cancelledTasks + 1 }
    | none => s
  { s1 with
    registry := s1.registry.filter (fun h => h ≠ s1.selfId)
    boundVariable := none
    onUpdate := false
    pollHandle := none }

/-! ### Specification-side definitions and concrete fixtures -/

/-- Schemas whose field writes stay clear of the 8 reserved header
bytes: the final cursor and every Array template's captured offset are
at least 8. Inference starts its cursor at 8 and only advances it, so
every inferred schema satisfies this. -/
def Schema.offsetsReserved (s : Schema) : Bool :=
  decide (8 ≤ s.finalCursor) &&
    s.encodingTemplate.all (fun t =>
      match t.kind with
      | .array off => decide (8 ≤ off)
      | _ => true)

/-- Pairwise-distinct string list, the key uniqueness JavaScript objects
guarantee. -/
def distinctKeys : List String → Bool
  | [] => true
  | k :: ks => !(ks.contains k) && distinctKeys ks

mutual

/-- Every container anywhere inside the value has pairwise-distinct own
keys — automatically true of any actual JavaScript value (object field
names are unique and array index strings are distinct). -/
def nodupKeys : JSValue → Bool
  | .vObj fs => distinctKeys (fs.map Prod.fst) && nodupKeysFields fs
  | .vArr es => distinctKeys (jsOwnKeys (.vArr es)) && nodupKeysList es
  | _ => true

/-- nodupKeys over an array's elements. -/
def nodupKeysList : List JSValue → Bool
  | [] => true
  | v :: vs => nodupKeys v && nodupKeysList vs

/-- nodupKeys over an object's field values. -/
def nodupKeysFields : List (String × JSValue) → Bool
  | [] => true
  | f :: fs => nodupKeys f.2 && nodupKeysFields fs

end

mutual

/-- Spec-side diff traversal, transcribed from the claim: an Object node
is visited over the union of old's and new's own keys — old's keys
first, then the keys only in new, each once — restricted to the keys
present in the descriptor; an Array node index-wise from 0 to
max(oldLength, newLength) - 1 with the single element descriptor at
every index; a mismatched (not strictly equal) Primitive or TypedArray
leaf emits exactly one replace patch carrying the full new value, in
traversal order. -/
def diffSpec (path : String) (old new_ : JSValue) (desc : Descriptor) : List Patch :=
  match desc with
  | .mk .Primitive _ _ _ _ _ =>
    if strictEq old new_ then [] else [⟨"replace", path, new_⟩]
  | .mk .TypedArray _ _ _ _ _ =>
    if strictEq old new_ then [] else [⟨"replace", path, new_⟩]
  | .mk .Object _ _ _ children _ =>
    diffSpecKeys path old new_ children
      ((jsOwnKeys old ++ (jsOwnKeys new_).filter (fun k => !((jsOwnKeys old).contains k))).filter
        (fun k => (children.map Prod.fst).contains k))
  | .mk .Array _ _ _ children _ =>
    match h : children.lookup "[]" with
    | none => []
    | some sub => diffSpecIdx path old new_ sub 0 (max (jsArrLen old) (jsArrLen new_))
termination_by (sizeOf desc, 0)
decreasing_by
  · apply Prod.Lex.left
    try simp
    try omega
  · apply Prod.Lex.left
    have := sizeOf_lookup_lt h
    try simp at this ⊢
    try omega

/-- The per-key walk of the spec-side Object case. -/
def diffSpecKeys (path : String) (old new_ : JSValue)
    (children : List (String × Descriptor)) : List String → List Patch
  | [] => []
  | key :: rest =>
    (match h : children.lookup key with
     | none => []
     | some sub => diffSpec (joinField path key) (jsGetProp old key) (jsGetProp new_ key) sub)
    ++ diffSpecKeys path old new_ children rest
termination_by keys => (sizeOf children, keys.length)
decreasing_by
  · apply Prod.Lex.left
    exact sizeOf_lookup_lt h
  · apply Prod.Lex.right
    try simp
    try omega

/-- The per-index walk of the spec-side Array case. -/
def diffSpecIdx (path : String) (old new_ : JSValue) (sub : Descriptor) (i n : Nat) :
    List Patch :=
  match n with
  | 0 => []
  | m + 1 =>
    diffSpec (idxPath path i) (jsArrGet old i) (jsArrGet new_ i) sub
      ++ diffSpecIdx path old new_ sub (i + 1) m
termination_by (sizeOf sub + 1, n)
decreasing_by
  · apply Prod.Lex.left
    omega
  · apply Prod.Lex.right
    omega

end

/-- The `{num: 42, str: "hello"}` sample of the specification's concrete
scenario. -/
def sampleNumStr : JSValue := .vObj [("num", .vNum (.val 42)), ("str", .vStr "hello")]

/-- Mutable view over the numeric/string sample. -/
def viewNumStr : View := mkView sampleNumStr true

/-- Immutable (`mutable: false`) view over the numeric/string sample. -/
def viewNumStrRO : View := mkView sampleNumStr false

/-- A sample whose first field is literally named "Number", the one path
shape for which the compiled `set` finds its template (the find compares
template paths against flat-index type tags). -/
def sampleNb : JSValue := .vObj [("Number", .vNum (.val 1)), ("b", .vNum (.val 2))]

/-- Mutable view over the `sampleNb` sample; its schema has byteSize 24
and final cursor 24. -/
def viewNb : View := mkView sampleNb true

/-! ### Helper lemmas -/

/-- The compiled encode invoked with an empty dirty set (as
View.prototype.encode does with `new Set()`) skips every template entry
and writes nothing. -/
theorem encodeLoop_empty_dirty (fc : Nat) (data : JSValue) (entries : List TemplateEntry)
    (dv : DV) : encodeLoop fc data (some []) entries dv = (dv, none) := by
  induction entries with
  | nil => rfl
  | cons e rest ih => simp [encodeLoop, ih]

/-- Float64 writes never alter the uint32 version cell. -/
theorem version_setF64 (dv : DV) (off : Nat) (v : JSNum) :
    ((dv.setF64 off v).1).version = dv.version := by
  unfold DV.setF64
  split
  · simp [DV.version, DV.getU32val, List.find?]
  · rfl

/-- Uint8 writes never alter the uint32 version cell. -/
theorem version_setU8 (dv : DV) (off n : Nat) :
    ((dv.setU8 off n).1).version = dv.version := by
  unfold DV.setU8
  split
  · simp [DV.version, DV.getU32val, List.find?]
  · rfl

/-- Int64 writes never alter the uint32 version cell. -/
theorem version_setI64 (dv : DV) (off : Nat) (i : Int) :
    ((dv.setI64 off i).1).version = dv.version := by
  unfold DV.setI64
  split
  · simp [DV.version, DV.getU32val, List.find?]
  · rfl

/-- String payload writes never alter the uint32 version cell. -/
theorem version_setStrBytes (dv : DV) (off : Nat) (s : String) :
    ((dv.setStrBytes off s).1).version = dv.version := by
  unfold DV.setStrBytes
  split
  · simp [DV.version, DV.getU32val, List.find?]
  · rfl

/-- Typed-array payload writes never alter the uint32 version cell. -/
theorem version_setTaData (dv : DV) (off : Nat) (t : TAType) (es : List Int) :
    ((dv.setTaData off t es).1).version = dv.version := by
  unfold DV.setTaData
  split
  · simp [DV.version, DV.getU32val, List.find?]
  · rfl

/-- Uint32 writes at a nonzero offset never alter the version cell. -/
theorem version_setU32 (dv : DV) (off n : Nat) (h : off ≠ 0) :
    ((dv.setU32 off n).1).version = dv.version := by
  unfold DV.setU32
  split
  · simp [DV.version, DV.getU32val, List.find?, h]
  · rfl

/-- A template setter whose write offsets avoid byte 0 leaves the
version counter unchanged. -/
theorem runSetter_version (fc : Nat) (k : SetterKind) (dv : DV) (v : JSValue)
    (hfc : fc ≠ 0) (hk : ∀ off, k = .array off → off ≠ 0) :
    ((runSetter fc k dv v).1).version = dv.version := by
  cases k with
  | number =>
    cases htn : toNumberE v with
    | error e => simp [runSetter, htn]
    | ok n => simp [runSetter, htn, version_setF64]
  | string =>
    rcases h32 : dv.setU32 fc (jsToString v).utf8ByteSize with ⟨dv1, e1⟩
    have h1 : dv1.version = dv.version := by
      have := version_setU32 dv fc (jsToString v).utf8ByteSize hfc
      rw [h32] at this
      exact this
    cases e1 with
    | none => simp [runSetter, h32, version_setStrBytes, h1]
    | some e => simp [runSetter, h32, h1]
  | boolean => simp [runSetter, version_setU8]
  | bigint =>
    cases htb : toBigIntE v with
    | error e => simp [runSetter, htb]
    | ok i => simp [runSetter, htb, version_setI64]
  | date => cases v <;> simp [runSetter, version_setI64]
  | typedArray t =>
    cases v
    case vTypedArray t' es =>
      rcases h32 : dv.setU32 fc es.length with ⟨dv1, e1⟩
      have h1 : dv1.version = dv.version := by
        have := version_setU32 dv fc es.length hfc
        rw [h32] at this
        exact this
      cases e1 with
      | none => simp [runSetter, h32, version_setTaData, h1]
      | some e => simp [runSetter, h32, h1]
    all_goals simp [runSetter]
  | array off =>
    have hoff : off ≠ 0 := hk off rfl
    cases v <;> simp [runSetter, version_setU32, hoff]
  | object => simp [runSetter]

/-- The compiled set never alters the version counter when the schema's
write offsets respect the reserved header. -/
theorem compiledSet_version (schema : Schema) (path : String) (value : JSValue) (dv : DV)
    (hres : schema.offsetsReserved = true) :
    ((Compiled.set schema path value dv).1).version = dv.version := by
  unfold Compiled.set
  cases hl : schema.flatIndex.lookup path with
  | none => rfl
  | some entry =>
    cases hf : schema.encodingTemplate.find? (fun t => t.ty = entry.ty) with
    | none => simp [hf]
    | some t =>
      simp only [hf]
      have hmem : t ∈ schema.encodingTemplate := List.mem_of_find?_eq_some hf
      unfold Schema.offsetsReserved at hres
      rw [Bool.and_eq_true] at hres
      have hfc : schema.finalCursor ≠ 0 := by
        have := of_decide_eq_true hres.1
        omega
      have hall := List.all_eq_true.mp hres.2 t hmem
      refine runSetter_version _ _ _ _ hfc ?_
      intro off hko
      rw [hko] at hall
      have := of_decide_eq_true hall
      omega

/-- The bulkSet entry loop never alters the version counter when the
schema's write offsets respect the reserved header. -/
theorem bulkSetLoop_version (schema : Schema) (entries : List (String × JSValue)) (dv : DV)
    (hres : schema.offsetsReserved = true) :
    ((bulkSetLoop schema entries dv).1).version = dv.version := by
  induction entries generalizing dv with
  | nil => rfl
  | cons e rest ih =>
    unfold bulkSetLoop
    rcases hs : Compiled.set schema e.1 e.2 dv with ⟨dv1, e1⟩
    have h1 : dv1.version = dv.version := by
      have := compiledSet_version schema e.1 e.2 dv hres
      rw [hs] at this
      exact this
    cases e1 with
    | none => simp [ih dv1, h1]
    | some err => simpa using h1

/-- A successful atomic increment bumps the version by exactly one
modulo 2^32. -/
theorem bumpVersion_version (dv dv' : DV) (h : dv.bumpVersion = (dv', none)) :
    dv'.version = (dv.version + 1) % 2 ^ 32 := by
  unfold DV.bumpVersion DV.setU32 at h
  split at h
  · rw [Prod.mk.injEq] at h
    rcases h with ⟨hdv, -⟩
    subst hdv
    simp [DV.version, DV.getU32val, List.find?]
  · simp at h

/-- C3: every successful mutating call — encode, set, bulkSet, patch and
applyPatch — increments the 32-bit version counter at segment bytes 0-3
by exactly one modulo 2^32 (the schema's write offsets respecting the
reserved 8-byte header, as every inferred schema does); the read-only
calls decode, decodePartial and getTypedArray are embedded as pure
readers of the segment and perform no writes. -/
theorem version_incremented_once_per_mutation (view : View) (dv : DV)
    (hres : view.schema.offsetsReserved = true) :
    (∀ data dv', View.encode view data dv = (dv', none) →
        dv'.version = (dv.version + 1) % 2 ^ 32) ∧
    (∀ path value dv', View.set view path value dv = (dv', none) →
        dv'.version = (dv.version + 1) % 2 ^ 32) ∧
    (∀ entries dv', View.bulkSet view entries dv = (dv', none) →
        dv'.version = (dv.version + 1) % 2 ^ 32) ∧
    (∀ path partial_ dv', View.patch view path partial_ dv = (dv', none) →
        dv'.version = (dv.version + 1) % 2 ^ 32) ∧
    (∀ p dv', applyPatch view dv p = (dv', none) →
        dv'.version = (dv.version + 1) % 2 ^ 32) := by
  have hset : ∀ path value dv', View.set view path value dv = (dv', none) →
      dv'.version = (dv.version + 1) % 2 ^ 32 := by
    intro path value dv' h
    unfold View.set at h
    split at h
    · cases h
    · split at h
      · cases h
      · rcases hs : Compiled.set view.schema path value dv with ⟨dv1, e1⟩
        rw [hs] at h
        cases e1 with
        | none =>
          have h1 : dv1.version = dv.version := by
            have := compiledSet_version view.schema path value dv hres
            rw [hs] at this
            exact this
          rw [← h1]
          exact bumpVersion_version dv1 dv' h
        | some e => cases h
  refine ⟨?_, hset, ?_, ?_, ?_⟩
  · intro data dv' h
    unfold View.encode at h
    split at h
    · cases h
    · split at h
      · cases h
      · split at h
        · cases h
        · rw [Compiled.encode, encodeLoop_empty_dirty] at h
          exact bumpVersion_version dv dv' h
  · intro entries dv' h
    unfold View.bulkSet at h
    split at h
    · cases h
    · split at h
      · cases h
      · rcases hs : bulkSetLoop view.schema entries dv with ⟨dv1, e1⟩
        rw [hs] at h
        cases e1 with
        | none =>
          have h1 : dv1.version = dv.version := by
            have := bulkSetLoop_version view.schema entries dv hres
            rw [hs] at this
            exact this
          rw [← h1]
          exact bumpVersion_version dv1 dv' h
        | some e => cases h
  · intro path partial_ dv' h
    unfold View.patch at h
    split at h
    · cases h
    · split at h
      · cases h
      · split at h
        · cases h
        · exact hset _ _ _ h
  · intro p dv' h
    unfold applyPatch at h
    split at h
    · cases h
    · split at h
      · cases h
      · split at h
        · exact hset _ _ _ h
        · split at h
          · exact hset _ _ _ h
          · cases h

/-- Witness for C3: each of the five mutating operations succeeds on a
concrete segment whose version counter was 0 and leaves it at 1. -/
theorem version_incremented_once_per_mutation_witness :
    ((View.encode viewNb sampleNb (zeroDV 32)).1).version = ((zeroDV 32).version + 1) % 2 ^ 32 ∧
    ((View.set viewNb "Number" (.vNum (.val 7)) (zeroDV 32)).1).version
      = ((zeroDV 32).version + 1) % 2 ^ 32 ∧
    ((View.bulkSet viewNb [("Number", .vNum (.val 5))] (zeroDV 32)).1).version
      = ((zeroDV 32).version + 1) % 2 ^ 32 ∧
    ((applyPatch viewNb (zeroDV 32) ⟨"replace", "Number", .vNum (.val 9)⟩).1).version
      = ((zeroDV 32).version + 1) % 2 ^ 32 := by
  have h := version_incremented_once_per_mutation viewNb (zeroDV 32) (by decide)
  exact ⟨h.1 sampleNb _ (by decide), h.2.1 "Number" (.vNum (.val 7)) _ (by decide),
    h.2.2.1 [("Number", .vNum (.val 5))] _ (by decide),
    h.2.2.2.2 ⟨"replace", "Number", .vNum (.val 9)⟩ _ (by decide)⟩

/-- C1: the spec requires each field template's closures to operate at
the field's own fixed offset, but in the code every leaf closure reads
the shared mutable `currentOffset` at call time: for the sample
`{num: 42, str: "hello"}` the `num` template records offset 8, yet its
setter writes the float at byte 25 — the cursor's final value, which
depends on the fields inferred afterwards — leaving byte 8 untouched,
and its getter likewise reads back from byte 25. -/
theorem template_closures_capture_final_cursor :
    (inferSchema sampleNumStr).encodingTemplate.head? = some ⟨8, "num", 8, .number⟩ ∧
    (inferSchema sampleNumStr).finalCursor = 25 ∧
    ((runSetter (inferSchema sampleNumStr).finalCursor .number (zeroDV 40)
        (.vNum (.val 42))).1).getF64val 25 = .val 42 ∧
    ((runSetter (inferSchema sampleNumStr).finalCursor .number (zeroDV 40)
        (.vNum (.val 42))).1).getF64val 8 = .val 0 ∧
    runGetter (inferSchema sampleNumStr).finalCursor .number
        ((runSetter (inferSchema sampleNumStr).finalCursor .number (zeroDV 40)
          (.vNum (.val 42))).1) = .ok (.vNum (.val 42)) := by
  refine ⟨by decide, by decide, by decide, by decide, by rfl⟩

/-- C2: the round-trip fails on the specification's own concrete
scenario: encoding `{num: 42, str: "hello"}` into an exactly-sized
zeroed segment succeeds (writing only the version counter, because
View.prototype.encode passes an empty dirty set), and decoding
immediately afterwards returns `{num: {num: 0}, str: {str: ""}}` — not
the encoded value. -/
theorem roundtrip_fails_on_concrete_sample :
    (View.encode viewNumStr sampleNumStr (zeroDV 25)).2 = none ∧
    View.decode viewNumStr (View.encode viewNumStr sampleNumStr (zeroDV 25)).1 =
      .ok (.vObj [("num", .vObj [("num", .vNum (.val 0))]), ("str", .vObj [("str", .vStr "")])]) ∧
    (.vObj [("num", .vObj [("num", .vNum (.val 0))]), ("str", .vObj [("str", .vStr "")])] : JSValue)
      ≠ sampleNumStr := by
  refine ⟨by rfl, ?_, ?_⟩
  · have henc : View.encode viewNumStr sampleNumStr (zeroDV 25) = (⟨25, [(0, .u32 1)]⟩, none) := by
      rfl
    rw [henc]
    have htree : viewNumStr.schema.descriptorTree =
        .mk .Object 8 17 none
          [("num", .mk .Primitive 8 8 (some .number) [] none),
           ("str", .mk .Primitive 16 9 (some .string) [] none)] none := by rfl
    have hbs : viewNumStr.schema.byteSize = 25 := by rfl
    have hl1 : lastSeg "num" = "num" := by rfl
    have hl2 : lastSeg "str" = "str" := by rfl
    simp +decide [View.decode, Compiled.decode, hbs, htree, traverseDescriptor,
      traverseObjChildren, readPrimitive, DV.getF64, DV.getF64val, DV.getU32,
      DV.getU32val, DV.readStr, hl1, hl2, objSet, joinField, Descriptor.byteOffset,
      Except.map, throw, throwThe, MonadExceptOf.throw, pure, Except.pure, bind,
      Except.bind]
  · intro hEq
    simp [sampleNumStr] at hEq

/-- C4 counterexample: on a view constructed with `mutable: false`,
encode into an exactly-sized segment does not fail with
ImmutableViewError — it succeeds, and writes the version increment. -/
theorem immutable_encode_succeeds :
    (View.encode viewNumStrRO sampleNumStr (zeroDV 25)).2 = none ∧
    ((View.encode viewNumStrRO sampleNumStr (zeroDV 25)).1).version = 1 := by
  refine ⟨by decide, by decide⟩

/-- C4 amended: set, bulkSet and patch fail with the immutable-view
error and applyPatch with its immutable-patch variant, all performing no
writes; encode alone lacks the mutability guard — on an immutable view
it fails only when the segment size differs from the schema byteSize
(buffer-too-small when smaller, the immutable size-mismatch error when
larger), succeeding when the sizes match. -/
theorem immutable_view_rejects_mutations (view : View) (dv : DV)
    (himm : view.mutable = false) :
    (∀ path value, View.set view path value dv = (dv, some .cannotMutateImmutable)) ∧
    (∀ entries, View.bulkSet view entries dv = (dv, some .cannotMutateImmutable)) ∧
    (∀ path partial_, View.patch view path partial_ dv = (dv, some .cannotMutateImmutable)) ∧
    (∀ p, applyPatch view dv p = (dv, some .cannotApplyPatchImmutable)) ∧
    (∀ data, view.schema.byteSize ≠ dv.byteLength →
      View.encode view data dv =
        (dv, some (if dv.byteLength < view.schema.byteSize then .bufferTooSmall
          else .immutableSizeMismatch))) := by
  refine ⟨fun path value => by simp [View.set, himm],
    fun entries => by simp [View.bulkSet, himm],
    fun path partial_ => by simp [View.patch, himm],
    fun p => by simp [applyPatch, himm],
    fun data hne => ?_⟩
  unfold View.encode
  split
  · simp_all
  · split
    · simp_all
    · simp_all

/-- Witness for C4's amended statement at a concrete immutable view,
path and segment. -/
theorem immutable_view_rejects_mutations_witness :
    View.set viewNumStrRO "num" (.vNum (.val 1)) (zeroDV 25)
      = (zeroDV 25, some .cannotMutateImmutable) ∧
    applyPatch viewNumStrRO (zeroDV 25) ⟨"replace", "num", .vNum (.val 1)⟩
      = (zeroDV 25, some .cannotApplyPatchImmutable) ∧
    View.encode viewNumStrRO sampleNumStr (zeroDV 40)
      = (zeroDV 40, some .immutableSizeMismatch) := by
  have h := immutable_view_rejects_mutations viewNumStrRO (zeroDV 25) (by decide)
  have h40 := immutable_view_rejects_mutations viewNumStrRO (zeroDV 40) (by decide)
  refine ⟨h.1 "num" (.vNum (.val 1)), h.2.2.2.1 ⟨"replace", "num", .vNum (.val 1)⟩, ?_⟩
  have := h40.2.2.2.2 sampleNumStr (by decide)
  simpa using this

/-- C5 counterexample: bulkSet with a valid first entry and an invalid
second path throws InvalidPathError only after the first entry's bytes
were already written, so the failing call does not leave the segment
unchanged. -/
theorem bulkSet_partial_write_on_invalid_path :
    View.bulkSet viewNb [("Number", .vNum (.val 5)), ("bogus", .vNum (.val 1))] (zeroDV 32)
      = (⟨32, [(24, .f64 (.val 5))]⟩, some .invalidPath) ∧
    (⟨32, [(24, .f64 (.val 5))]⟩ : DV) ≠ zeroDV 32 ∧
    (⟨32, [(24, .f64 (.val 5))]⟩ : DV).getF64val 24 ≠ (zeroDV 32).getF64val 24 := by
  refine ⟨by decide, by decide, by decide⟩

/-- C5 amended: a failing encode always leaves the segment byte-for-byte
unchanged (its validation precedes any write, and its field loop runs no
template because of the empty dirty set), and bulkSet checks mutability
and segment size before touching any byte; but bulkSet checks path
validity only entry-by-entry inside its write loop, so a call failing on
a later path leaves the earlier entries' bytes written. -/
theorem encode_error_leaves_segment_unchanged (view : View) (dv : DV) :
    (∀ data e, (View.encode view data dv).2 = some e → (View.encode view data dv).1 = dv) ∧
    (view.mutable = false →
      ∀ entries, View.bulkSet view entries dv = (dv, some .cannotMutateImmutable)) ∧
    (view.mutable = true → dv.byteLength < view.schema.byteSize →
      ∀ entries, View.bulkSet view entries dv = (dv, some .bufferTooSmall)) := by
  refine ⟨fun data e he => ?_, fun himm entries => by simp [View.bulkSet, himm],
    fun hmut hsz entries => by simp [View.bulkSet, hmut, hsz]⟩
  by_cases h1 : dv.byteLength < view.schema.byteSize
  · simp [View.encode, h1]
  · by_cases h2 : view.mutable = false ∧ view.schema.byteSize ≠ dv.byteLength
    · simp [View.encode, h1, h2]
    · by_cases h3 : hasUndefined data = true
      · simp [View.encode, h1, h2, h3]
      · have hrw : View.encode view data dv = dv.bumpVersion := by
          simp [View.encode, h1, h2, h3, Compiled.encode, encodeLoop_empty_dirty]
        rw [hrw] at he ⊢
        unfold DV.bumpVersion DV.setU32 at he ⊢
        split at he
        · simp at he
        · rw [if_neg (by omega)]

/-- Witness for C5's amended statement: a too-small segment makes encode
fail with the segment untouched, and pre-write bulkSet failures leave it
untouched as well. -/
theorem encode_error_leaves_segment_unchanged_witness :
    (View.encode viewNb sampleNb (zeroDV 10)).1 = zeroDV 10 ∧
    View.bulkSet viewNb [("Number", .vNum (.val 5))] (zeroDV 10)
      = (zeroDV 10, some .bufferTooSmall) := by
  have h := encode_error_leaves_segment_unchanged viewNb (zeroDV 10)
  exact ⟨h.1 sampleNb .bufferTooSmall (by decide),
    h.2.2 (by decide) (by decide) [("Number", .vNum (.val 5))]⟩

/-- C6 counterexample: applying a `remove` patch to the concretely typed
(Number) slot at path "Number" raises no UnsupportedPatchError — it
succeeds, coercing undefined to NaN, writing it through the slot's
setter and incrementing the version, so the segment's bytes change. -/
theorem remove_patch_writes_instead_of_failing :
    applyPatch viewNb (zeroDV 32) ⟨"remove", "Number", .vUndefined⟩
      = (⟨32, [(0, .u32 1), (24, .f64 .nan)]⟩, none) ∧
    (⟨32, [(0, .u32 1), (24, .f64 .nan)]⟩ : DV) ≠ zeroDV 32 ∧
    ((⟨32, [(0, .u32 1), (24, .f64 .nan)]⟩ : DV)).getF64val 24 ≠ (zeroDV 32).getF64val 24 := by
  refine ⟨by decide, by decide, by decide⟩

/-- C6 amended: applyPatch with op `add` or `replace` invokes set with
the patch value; with op `remove` it invokes set with undefined — which
a concretely-typed slot's setter coerces and writes rather than raising
UnsupportedPatchError; that error is raised only for unrecognized op
strings. -/
theorem applyPatch_dispatch (view : View) (dv : DV) (p : Patch)
    (hm : view.mutable = true) (hs : view.schema.byteSize ≤ dv.byteLength) :
    (p.op = "add" ∨ p.op = "replace" →
      applyPatch view dv p = View.set view p.path p.value dv) ∧
    (p.op = "remove" → applyPatch view dv p = View.set view p.path .vUndefined dv) ∧
    (p.op ≠ "add" → p.op ≠ "replace" → p.op ≠ "remove" →
      applyPatch view dv p = (dv, some .unsupportedPatchOp)) := by
  have hns : ¬ dv.byteLength < view.schema.byteSize := Nat.not_lt.mpr hs
  refine ⟨fun hop => ?_, fun hop => ?_, fun h1 h2 h3 => ?_⟩
  · unfold applyPatch
    rcases hop with hop | hop <;> simp [hm, hns, hop]
  · unfold applyPatch
    simp [hm, hns, hop]
  · unfold applyPatch
    simp [hm, hns, h1, h2, h3]

/-- Witness for C6's amended statement: concrete dispatches of replace,
remove and an unknown op on the fixture view. -/
theorem applyPatch_dispatch_witness :
    applyPatch viewNb (zeroDV 32) ⟨"replace", "Number", .vNum (.val 9)⟩
      = View.set viewNb "Number" (.vNum (.val 9)) (zeroDV 32) ∧
    applyPatch viewNb (zeroDV 32) ⟨"remove", "Number", .vNum (.val 9)⟩
      = View.set viewNb "Number" .vUndefined (zeroDV 32) ∧
    applyPatch viewNb (zeroDV 32) ⟨"move", "Number", .vNum (.val 9)⟩
      = (zeroDV 32, some .unsupportedPatchOp) := by
  have h1 := applyPatch_dispatch viewNb (zeroDV 32) ⟨"replace", "Number", .vNum (.val 9)⟩
    (by decide) (by decide)
  have h2 := applyPatch_dispatch viewNb (zeroDV 32) ⟨"remove", "Number", .vNum (.val 9)⟩
    (by decide) (by decide)
  have h3 := applyPatch_dispatch viewNb (zeroDV 32) ⟨"move", "Number", .vNum (.val 9)⟩
    (by decide) (by decide)
  exact ⟨h1.1 (Or.inr rfl), h2.2.1 rfl, h3.2.2 (by decide) (by decide) (by decide)⟩

/-- Filtering twice with the same predicate equals filtering once. -/
theorem filter_idem {α : Type} (p : α → Bool) (l : List α) :
    (l.filter p).filter p = l.filter p := by
  induction l with
  | nil => rfl
  | cons a as ih =>
    by_cases hp : p a
    · simp [List.filter, hp, ih]
    · simp [List.filter, hp, ih]

/-- An element is never contained in the list filtered by distinctness
from it. -/
theorem contains_filter_ne (l : List Nat) (x : Nat) :
    (l.filter (fun h => h ≠ x)).contains x = false := by
  induction l with
  | nil => rfl
  | cons a as ih =>
    by_cases ha : a = x
    · simpa [List.filter, ha] using ih
    · simp [List.filter, ha, List.contains_cons, ih]
      omega

/-- C8: ViewSync.destroy cancels the pending poll task, removes the
handle from the per-segment registry and clears the bound-variable and
callback references; and it is idempotent — a second destroy changes
nothing further (in particular it does not cancel again, since the poll
handle was already cleared). -/
theorem viewsync_destroy_idempotent (s : SyncState) :
    SyncState.destroy (SyncState.destroy s) = SyncState.destroy s ∧
    (SyncState.destroy s).pollHandle = none ∧
    (SyncState.destroy s).registry.contains s.selfId = false ∧
    (SyncState.destroy s).boundVariable = none ∧
    (SyncState.destroy s).onUpdate = false ∧
    (s.pollHandle = none → (SyncState.destroy s).cancelledTasks = s.cancelledTasks) ∧
    (s.pollHandle ≠ none → (SyncState.destroy s).cancelledTasks = s.cancelledTasks + 1) := by
  rcases s with ⟨id, ph, reg, bv, ou, bp, lv, ct⟩
  cases ph with
  | none => simp [SyncState.destroy, filter_idem, contains_filter_ne]
  | some t => simp [SyncState.destroy, filter_idem, contains_filter_ne]

/-- C9: inferring a schema from `{num: 42, str: "hello"}` yields
byteSize 25 — the 8 reserved header bytes, 8 bytes for the number at
offset 8 and 4 + 5 bytes for the string at offset 16 (the UTF-8 length
of "hello" being 5), with the field offsets assigned in ascending
enumeration order starting at byte 8. -/
theorem schema_layout_num_str :
    (inferSchema sampleNumStr).byteSize = 25 ∧
    (inferSchema sampleNumStr).encodingTemplate =
      [⟨8, "num", 8, .number⟩, ⟨16, "str", 9, .string⟩, ⟨8, "", 17, .object⟩] ∧
    (inferSchema sampleNumStr).flatIndex.lookup "num" = some ⟨8, "Number"⟩ ∧
    (inferSchema sampleNumStr).flatIndex.lookup "str" = some ⟨16, "String"⟩ ∧
    "hello".utf8ByteSize = 5 ∧
    (inferSchema sampleNumStr).byteSize = 8 + 8 + (4 + "hello".utf8ByteSize) := by
  refine ⟨by decide, by decide, by decide, by decide, by decide, by decide⟩

/-- A nested undefined in an object field makes hasUndefined true. -/
theorem hasUndefined_of_field {fs : List (String × JSValue)} {k : String} {v : JSValue}
    (hmem : (k, v) ∈ fs) (hv : hasUndefined v = true) :
    hasUndefined (JSValue.vObj fs) = true := by
  rw [hasUndefined]
  induction fs with
  | nil => cases hmem
  | cons f rest ih =>
    rw [hasUndefinedFields]
    rcases List.mem_cons.mp hmem with heq | hrest
    · subst heq
      simp [hv]
    · simp [ih hrest]

/-- A nested undefined in an array element makes hasUndefined true. -/
theorem hasUndefined_of_elem {es : List JSValue} {v : JSValue}
    (hmem : v ∈ es) (hv : hasUndefined v = true) :
    hasUndefined (JSValue.vArr es) = true := by
  rw [hasUndefined]
  induction es with
  | nil => cases hmem
  | cons e rest ih =>
    rw [hasUndefinedList]
    rcases List.mem_cons.mp hmem with heq | hrest
    · subst heq
      simp [hv]
    · simp [ih hrest]

/-- C10: whenever the data given to View.prototype.encode contains
undefined anywhere — as the value itself (hasUndefined is true on
undefined), as an object property at any depth or as an array element
(the two propagation conjuncts) — encode throws before writing a single
byte, and the error thrown is never the per-field MissingValueError;
null values and typed-array contents never trigger the check. -/
theorem encode_rejects_undefined (view : View) (data : JSValue) (dv : DV)
    (h : hasUndefined data = true) :
    (View.encode view data dv).1 = dv ∧
    ((View.encode view data dv).2).isSome = true ∧
    (View.encode view data dv).2 ≠ some .missingValue ∧
    (¬ dv.byteLength < view.schema.byteSize →
      ¬ (view.mutable = false ∧ view.schema.byteSize ≠ dv.byteLength) →
      (View.encode view data dv).2 = some .undefinedNotAllowed) ∧
    hasUndefined .vNull = false ∧
    hasUndefined .vUndefined = true ∧
    (∀ t es, hasUndefined (.vTypedArray t es) = false) := by
  by_cases h1 : dv.byteLength < view.schema.byteSize
  · refine ⟨by simp [View.encode, h1], by simp [View.encode, h1], by simp [View.encode, h1],
      fun hc => absurd h1 hc, by decide, by decide, fun t es => by rfl⟩
  · by_cases h2 : view.mutable = false ∧ view.schema.byteSize ≠ dv.byteLength
    · refine ⟨by simp [View.encode, h1, h2], by simp [View.encode, h1, h2],
        by simp [View.encode, h1, h2], fun _ hc => absurd h2 hc, by decide, by decide,
        fun t es => by rfl⟩
    · refine ⟨by simp [View.encode, h1, h2, h], by simp [View.encode, h1, h2, h],
        by simp [View.encode, h1, h2, h], fun _ _ => by simp [View.encode, h1, h2, h],
        by decide, by decide, fun t es => by rfl⟩

/-- Witness for C10 at a nested concrete input: an object whose second
field holds an object with an undefined property is rejected with the
segment untouched. -/
theorem encode_rejects_undefined_witness :
    hasUndefined (.vObj [("a", .vNum (.val 1)), ("b", .vObj [("c", .vUndefined)])]) = true ∧
    (View.encode viewNb (.vObj [("a", .vNum (.val 1)), ("b", .vObj [("c", .vUndefined)])])
      (zeroDV 32)).1 = zeroDV 32 ∧
    (View.encode viewNb (.vObj [("a", .vNum (.val 1)), ("b", .vObj [("c", .vUndefined)])])
      (zeroDV 32)).2 = some .undefinedNotAllowed := by
  have h := encode_rejects_undefined viewNb
    (.vObj [("a", .vNum (.val 1)), ("b", .vObj [("c", .vUndefined)])]) (zeroDV 32) (by decide)
  exact ⟨by decide, h.1, h.2.2.2.1 (by decide) (by decide)⟩

/-! ### C7 supporting lemmas -/

/-- An association-list lookup is none exactly when the key list does
not contain the key. -/
theorem lookup_none_iff {α : Type} (l : List (String × α)) (k : String) :
    l.lookup k = none ↔ (l.map Prod.fst).contains k = false := by
  induction l with
  | nil => simp [List.lookup]
  | cons hd tl ih =>
    rcases hd with ⟨a, b⟩
    rw [List.lookup]
    by_cases hk : k = a
    · subst hk
      simp
    · have hb : (k == a) = false := by simpa using hk
      rw [hb]
      simp only [List.map_cons, List.contains_cons, hb]
      simpa using ih

/-- A successful association-list lookup returns a stored value. -/
theorem lookup_mem {α : Type} {l : List (String × α)} {k : String} {w : α}
    (h : l.lookup k = some w) : ∃ x, (x, w) ∈ l := by
  induction l with
  | nil => simp [List.lookup] at h
  | cons hd tl ih =>
    rcases hd with ⟨a, b⟩
    rw [List.lookup] at h
    split at h
    · cases h
      exact ⟨a, List.mem_cons_self _ _⟩
    · rcases ih h with ⟨x, hx⟩
      exact ⟨x, List.mem_cons_of_mem _ hx⟩

/-- Filtering by distinctness from an absent element changes nothing. -/
theorem filter_ne_of_not_contains (l : List String) (a : String)
    (h : l.contains a = false) : l.filter (fun b => b ≠ a) = l := by
  induction l with
  | nil => rfl
  | cons x xs ih =>
    rw [List.contains_cons] at h
    rw [Bool.or_eq_false_iff] at h
    have hxa : x ≠ a := by
      intro he
      subst he
      simp at h
    simp only [List.filter_cons]
    rw [if_pos (by simpa using hxa)]
    rw [ih h.2]

/-- Distinctness survives filtering. -/
theorem distinctKeys_filter (l : List String) (p : String → Bool)
    (h : distinctKeys l = true) : distinctKeys (l.filter p) = true := by
  induction l with
  | nil => rfl
  | cons x xs ih =>
    rw [distinctKeys, Bool.and_eq_true] at h
    by_cases hp : p x
    · simp only [List.filter_cons, if_pos hp]
      rw [distinctKeys, Bool.and_eq_true]
      refine ⟨?_, ih h.2⟩
      have hx : x ∉ xs := by
        have h1 := h.1
        rw [Bool.not_eq_true'] at h1
        simpa using h1
      simpa using (Or.inl hx : x ∉ xs ∨ p x = false)
    · simp only [List.filter_cons, if_neg hp]
      exact ih h.2

/-- A duplicate-free list passes through the Set dedup unchanged. -/
theorem jsSetDedup_distinct (l : List String) (h : distinctKeys l = true) :
    jsSetDedup l = l := by
  induction l with
  | nil => simp [jsSetDedup]
  | cons a as ih =>
    rw [distinctKeys, Bool.and_eq_true] at h
    have h1 : as.contains a = false := by
      have := h.1
      rw [Bool.not_eq_true'] at this
      exact this
    rw [jsSetDedup]
    rw [filter_ne_of_not_contains as a h1]
    rw [ih h.2]

/-- The Set-of-concatenation key order: with duplicate-free inputs, the
dedup of old keys followed by new keys is the old keys followed by the
new keys not already present — the claim's "old keys first, then keys
only in new, each visited once". -/
theorem jsSetDedup_append (o : List String) : ∀ n : List String,
    distinctKeys o = true → distinctKeys n = true →
    jsSetDedup (o ++ n) = o ++ n.filter (fun k => !(o.contains k)) := by
  induction o with
  | nil =>
    intro n _ hn
    simpa using jsSetDedup_distinct n hn
  | cons a o' ih =>
    intro n ho hn
    rw [distinctKeys, Bool.and_eq_true] at ho
    have ha : o'.contains a = false := by
      have := ho.1
      rw [Bool.not_eq_true'] at this
      exact this
    rw [List.cons_append, jsSetDedup, List.filter_append,
      filter_ne_of_not_contains o' a ha,
      ih (n.filter (fun b => b ≠ a)) ho.2 (distinctKeys_filter n _ hn),
      List.filter_filter]
    rw [List.cons_append]
    congr 2
    apply List.filter_congr
    intro k _
    rw [List.contains_cons]
    by_cases hka : k = a
    · subst hka
      simp
    · have hb : (k == a) = false := by simpa using hka
      simp [hb, hka]

/-- Own keys of a value with duplicate-free containers are distinct. -/
theorem distinct_ownKeys (v : JSValue) (h : nodupKeys v = true) :
    distinctKeys (jsOwnKeys v) = true := by
  cases v with
  | vObj fs =>
    rw [nodupKeys, Bool.and_eq_true] at h
    exact h.1
  | vArr es =>
    rw [nodupKeys, Bool.and_eq_true] at h
    exact h.1
  | vNull => rfl
  | vUndefined => rfl
  | vNum n => rfl
  | vStr s => rfl
  | vBool b => rfl
  | vBigInt i => rfl
  | vDate ms => rfl
  | vTypedArray t es => rfl

/-- Field values of a duplicate-free object are duplicate-free. -/
theorem nodupKeysFields_mem {fs : List (String × JSValue)} {x : String} {y : JSValue}
    (hmem : (x, y) ∈ fs) (h : nodupKeysFields fs = true) : nodupKeys y = true := by
  induction fs with
  | nil => cases hmem
  | cons f rest ih =>
    rw [nodupKeysFields, Bool.and_eq_true] at h
    rcases List.mem_cons.mp hmem with heq | hrest
    · cases heq
      exact h.1
    · exact ih hrest h.2

/-- Elements of a duplicate-free array are duplicate-free. -/
theorem nodupKeysList_mem {es : List JSValue} {v : JSValue}
    (hmem : v ∈ es) (h : nodupKeysList es = true) : nodupKeys v = true := by
  induction es with
  | nil => cases hmem
  | cons e rest ih =>
    rw [nodupKeysList, Bool.and_eq_true] at h
    rcases List.mem_cons.mp hmem with heq | hrest
    · subst heq
      exact h.1
    · exact ih hrest h.2

/-- Property reads of a duplicate-free value are duplicate-free. -/
theorem nodupKeys_getProp (v : JSValue) (k : String) (h : nodupKeys v = true) :
    nodupKeys (jsGetProp v k) = true := by
  cases v with
  | vObj fs =>
    rw [nodupKeys, Bool.and_eq_true] at h
    rw [jsGetProp]
    cases hlk : fs.lookup k with
    | none => rfl
    | some w =>
      rcases lookup_mem hlk with ⟨x, hx⟩
      simpa using nodupKeysFields_mem hx h.2
  | vArr es =>
    rw [nodupKeys, Bool.and_eq_true] at h
    rw [jsGetProp]
    cases hn : strToNat? k with
    | none => rfl
    | some i =>
      dsimp only
      by_cases hts : toString i = k
      · rw [if_pos hts]
        cases hget : es[i]? with
        | none => simp [List.getD, hget, nodupKeys]
        | some w =>
          have hw : w ∈ es := List.getElem?_mem hget
          simpa [List.getD, hget] using nodupKeysList_mem hw h.2
      · rw [if_neg hts]
        simp [nodupKeys]
  | vTypedArray t es =>
    rw [jsGetProp]
    cases hn : strToNat? k with
    | none => rfl
    | some i =>
      dsimp only
      by_cases hts : toString i = k
      · rw [if_pos hts]
        cases hget : es.get? i <;> simp [hget, nodupKeys]
      · rw [if_neg hts]
        simp [nodupKeys]
  | vNull => rfl
  | vUndefined => rfl
  | vNum n => rfl
  | vStr s => rfl
  | vBool b => rfl
  | vBigInt i => rfl
  | vDate ms => rfl

/-- Element reads of a duplicate-free value are duplicate-free. -/
theorem nodupKeys_arrGet (v : JSValue) (i : Nat) (h : nodupKeys v = true) :
    nodupKeys (jsArrGet v i) = true := by
  cases v with
  | vArr es =>
    rw [nodupKeys, Bool.and_eq_true] at h
    rw [jsArrGet]
    cases hget : es[i]? with
    | none => simp [List.getD, hget, nodupKeys]
    | some w =>
      have hw : w ∈ es := List.getElem?_mem hget
      simpa [List.getD, hget] using nodupKeysList_mem hw h.2
  | vObj fs => rfl
  | vNull => rfl
  | vUndefined => rfl
  | vNum n => rfl
  | vStr s => rfl
  | vBool b => rfl
  | vBigInt i => rfl
  | vDate ms => rfl
  | vTypedArray t es => rfl

/-- Strictly equal operands are key-less and length-less: strict
equality only holds between primitives, whose own-key lists are empty
and whose array lengths default to zero. -/
theorem strictEq_composite_empty (v w : JSValue) (h : strictEq v w = true) :
    jsOwnKeys v = [] ∧ jsOwnKeys w = [] ∧ jsArrLen v = 0 ∧ jsArrLen w = 0 := by
  cases v <;> cases w <;> simp_all [strictEq, jsOwnKeys, jsArrLen]

/-- Pointwise-equal functions collect equal lists. -/
theorem listCollect_congr {α β : Type} (f g : α → List β) (l : List α)
    (h : ∀ a ∈ l, f a = g a) : listCollect f l = listCollect g l := by
  induction l with
  | nil => rfl
  | cons a as ih =>
    rw [listCollect, listCollect, h a (List.mem_cons_self _ _),
      ih (fun b hb => h b (List.mem_cons_of_mem _ hb))]

/-- Items contributing nothing can be filtered out of a collect. -/
theorem listCollect_filter {α β : Type} (f : α → List β) (p : α → Bool) (l : List α)
    (h : ∀ a ∈ l, p a = false → f a = []) :
    listCollect f l = listCollect f (l.filter p) := by
  induction l with
  | nil => rfl
  | cons a as ih =>
    rw [List.filter_cons]
    by_cases hp : p a
    · rw [if_pos hp, listCollect, listCollect,
        ih (fun b hb hbf => h b (List.mem_cons_of_mem _ hb) hbf)]
    · have hpf : p a = false := by simpa using hp
      rw [if_neg (by simp [hpf]), listCollect, h a (List.mem_cons_self _ _) hpf,
        List.nil_append, ih (fun b hb hbf => h b (List.mem_cons_of_mem _ hb) hbf)]

/-- The key loop of the code's Object case as a collect over its keys. -/
theorem compareKeys_eq_collect (path : String) (old new_ : JSValue)
    (children : List (String × Descriptor)) (keys : List String) :
    compareKeys path old new_ children keys =
      listCollect (fun key =>
        match children.lookup key with
        | none => []
        | some sub =>
          compareValues (joinField path key) (jsGetProp old key) (jsGetProp new_ key) sub)
        keys := by
  induction keys with
  | nil => simp [compareKeys, listCollect]
  | cons k ks ih =>
    cases hlk : children.lookup k with
    | none =>
      simp [compareKeys, listCollect, hlk, ih]
      split
      · rfl
      · rename_i sub heq
        rw [hlk] at heq
        cases heq
    | some sub =>
      simp [compareKeys, listCollect, hlk, ih]
      split
      · rename_i heq
        rw [hlk] at heq
        cases heq
      · rename_i sub' heq
        rw [hlk] at heq
        cases heq
        rfl

/-- The key loop of the spec's Object case as a collect over its keys. -/
theorem diffSpecKeys_eq_collect (path : String) (old new_ : JSValue)
    (children : List (String × Descriptor)) (keys : List String) :
    diffSpecKeys path old new_ children keys =
      listCollect (fun key =>
        match children.lookup key with
        | none => []
        | some sub =>
          diffSpec (joinField path key) (jsGetProp old key) (jsGetProp new_ key) sub)
        keys := by
  induction keys with
  | nil => simp [diffSpecKeys, listCollect]
  | cons k ks ih =>
    cases hlk : children.lookup k with
    | none =>
      simp [diffSpecKeys, listCollect, hlk, ih]
      split
      · rfl
      · rename_i sub heq
        rw [hlk] at heq
        cases heq
    | some sub =>
      simp [diffSpecKeys, listCollect, hlk, ih]
      split
      · rename_i heq
        rw [hlk] at heq
        cases heq
      · rename_i sub' heq
        rw [hlk] at heq
        cases heq
        rfl

/-- Index-loop congruence between the code's and the spec's Array
walks. -/
theorem compareIdx_eq_diffSpecIdx (path : String) (old new_ : JSValue) (sub : Descriptor)
    (hrec : ∀ j, compareValues (idxPath path j) (jsArrGet old j) (jsArrGet new_ j) sub
      = diffSpec (idxPath path j) (jsArrGet old j) (jsArrGet new_ j) sub) :
    ∀ n i, compareIdx path old new_ sub i n = diffSpecIdx path old new_ sub i n := by
  intro n
  induction n with
  | zero => intro i; simp [compareIdx, diffSpecIdx]
  | succ m ih => intro i; simp [compareIdx, diffSpecIdx, hrec i, ih (i + 1)]

/-- The code's diff traversal agrees with the claim's description at
every descriptor, for values whose containers have duplicate-free keys
(true of every actual JavaScript value), by strong induction on the
descriptor size. -/
theorem compare_eq_spec_aux : ∀ (n : Nat) (desc : Descriptor), sizeOf desc < n →
    ∀ (path : String) (old new_ : JSValue), nodupKeys old = true → nodupKeys new_ = true →
    compareValues path old new_ desc = diffSpec path old new_ desc := by
  intro n
  induction n with
  | zero =>
    intro desc h
    omega
  | succ n ih =>
    intro desc hsz path old new_ ho hn
    rcases desc with ⟨ty, off, bs, dt, ch, len⟩
    cases ty with
    | Primitive => by_cases hse : strictEq old new_ <;> simp [compareValues, diffSpec, hse]
    | TypedArray => by_cases hse : strictEq old new_ <;> simp [compareValues, diffSpec, hse]
    | Object =>
      by_cases hse : strictEq old new_
      · have hk := strictEq_composite_empty old new_ hse
        simp [compareValues, diffSpec, hse, hk.1, hk.2.1, diffSpecKeys]
      · have hchsz : sizeOf ch < n + 1 := by
          simp at hsz ⊢
          omega
        have hstep : compareValues path old new_ (.mk .Object off bs dt ch len)
            = compareKeys path old new_ ch (jsSetDedup (jsOwnKeys old ++ jsOwnKeys new_)) := by
          simp [compareValues, hse]
        have hstep2 : diffSpec path old new_ (.mk .Object off bs dt ch len)
            = diffSpecKeys path old new_ ch
              ((jsOwnKeys old ++ (jsOwnKeys new_).filter
                  (fun k => !((jsOwnKeys old).contains k))).filter
                (fun k => (ch.map Prod.fst).contains k)) := by
          simp [diffSpec]
        rw [hstep, hstep2, compareKeys_eq_collect, diffSpecKeys_eq_collect,
          jsSetDedup_append (jsOwnKeys old) (jsOwnKeys new_)
            (distinct_ownKeys old ho) (distinct_ownKeys new_ hn),
          listCollect_filter _ (fun k => (ch.map Prod.fst).contains k) _ (by
            intro k _ hkf
            rw [(lookup_none_iff ch k).mpr hkf])]
        apply listCollect_congr
        intro k _
        cases hlk : ch.lookup k with
        | none => rfl
        | some sub =>
          have hsub : sizeOf sub < n := by
            have h1 := sizeOf_lookup_lt hlk
            simp at hsz
            omega
          exact ih sub hsub (joinField path k) (jsGetProp old k) (jsGetProp new_ k)
            (nodupKeys_getProp old k ho) (nodupKeys_getProp new_ k hn)
    | Array =>
      by_cases hse : strictEq old new_
      · have hk := strictEq_composite_empty old new_ hse
        cases hlk : ch.lookup "[]" with
        | none =>
          simp [compareValues, diffSpec, hse, hlk]
          split
          · rfl
          · rename_i sub heq
            rw [hlk] at heq
            cases heq
        | some sub =>
          simp [compareValues, diffSpec, hse, hlk, hk.2.2.1, hk.2.2.2, diffSpecIdx]
          split <;> rfl
      · cases hlk : ch.lookup "[]" with
        | none =>
          have hstep : compareValues path old new_ (.mk .Array off bs dt ch len) = [] := by
            simp [compareValues, hse]
            split
            · rfl
            · rename_i sub heq
              rw [hlk] at heq
              cases heq
          have hstep2 : diffSpec path old new_ (.mk .Array off bs dt ch len) = [] := by
            simp [diffSpec]
            split
            · rfl
            · rename_i sub heq
              rw [hlk] at heq
              cases heq
          rw [hstep, hstep2]
        | some sub =>
          have hstep : compareValues path old new_ (.mk .Array off bs dt ch len)
              = compareIdx path old new_ sub 0 (max (jsArrLen old) (jsArrLen new_)) := by
            simp [compareValues, hse]
            split
            · rename_i heq
              rw [hlk] at heq
              cases heq
            · rename_i sub' heq
              rw [hlk] at heq
              cases heq
              rfl
          have hstep2 : diffSpec path old new_ (.mk .Array off bs dt ch len)
              = diffSpecIdx path old new_ sub 0 (max (jsArrLen old) (jsArrLen new_)) := by
            simp [diffSpec]
            split
            · rename_i heq
              rw [hlk] at heq
              cases heq
            · rename_i sub' heq
              rw [hlk] at heq
              cases heq
              rfl
          rw [hstep, hstep2]
          apply compareIdx_eq_diffSpecIdx
          intro j
          have hsub : sizeOf sub < n := by
            have h1 := sizeOf_lookup_lt hlk
            simp at hsz
            omega
          exact ih sub hsub (idxPath path j) (jsArrGet old j) (jsArrGet new_ j)
            (nodupKeys_arrGet old j ho) (nodupKeys_arrGet new_ j hn)

/-- C7: the structural comparison underlying diff behaves exactly as the
claim describes — Object nodes walk the union of old's and new's own
keys (old first, then new-only keys, each once) restricted to the
descriptor's keys, Array nodes walk indexes 0 to
max(oldLength, newLength) - 1 with the single element descriptor, and
each mismatched Primitive/TypedArray leaf yields exactly one replace
patch with the full new value, the patch list being the stable traversal
order — stated as equality with the spec-side transcription `diffSpec`,
for every descriptor and every pair of values with duplicate-free
container keys (which every actual JavaScript value has). -/
theorem diff_traversal_matches_spec (desc : Descriptor) (path : String) (old new_ : JSValue)
    (ho : nodupKeys old = true) (hn : nodupKeys new_ = true) :
    compareValues path old new_ desc = diffSpec path old new_ desc :=
  compare_eq_spec_aux (sizeOf desc + 1) desc (Nat.lt_succ_self _) path old new_ ho hn

/-- Witness for C7: the specification's concrete diff scenario — old
`{num: 42, str: "hello"}` against new `{num: 100, str: "world"}` under
the inferred descriptor — where the comparison and the spec traversal
agree (both yielding the two replace patches in schema order). -/
theorem diff_traversal_matches_spec_witness :
    nodupKeys sampleNumStr = true ∧
    nodupKeys (.vObj [("num", .vNum (.val 100)), ("str", .vStr "world")]) = true ∧
    compareValues "" sampleNumStr (.vObj [("num", .vNum (.val 100)), ("str", .vStr "world")])
        (inferSchema sampleNumStr).descriptorTree
      = diffSpec "" sampleNumStr (.vObj [("num", .vNum (.val 100)), ("str", .vStr "world")])
        (inferSchema sampleNumStr).descriptorTree :=
  ⟨by decide, by decide,
    diff_traversal_matches_spec (inferSchema sampleNumStr).descriptorTree ""
      sampleNumStr (.vObj [("num", .vNum (.val 100)), ("str", .vStr "world")])
      (by decide) (by decide)⟩

end BufferVariables
